import Mathlib

/-!
Verification development for the `acutter` manifest reconciler and serializer
(`src/acutter/cli.py`).

The development shallowly embeds the two core components:

* the reconciler `merge_old_new` (cli.py lines 317-374), which merges an OLD
  pyproject document into a freshly generated NEW one, field by field, and
  rewrites the manifest file only when its dependency-change counter is
  positive; and

* the serializer: the custom `dumps` (lines 464-506) with its
  circular-reference check, and `CustomEncoder.dump_list` (lines 446-461)
  together with the array-element pre-rendering done by the third-party
  `toml` encoder's `dump_value` (uiri/toml, the revision referenced by the
  docstring of `dumps`; its `dump_funcs` maps `int` to the identity, `str`
  to `_dump_str`, and `list` to `self.dump_list`, so a nested list is
  rendered to a string before the flattening loop ever sees it).

Documents are modelled as finite trees of ordered string-keyed tables
(`TVal`), matching the spec's StructuredDocument data model restricted to the
value shapes the tracked fields use (strings, arrays of strings, tables).
Python's `KeyError`/`TypeError` distinction for a failed chained lookup
`x["a"]["b"]` is modelled by `GetRes.missing` (a table lacks the key, caught
by the code) versus `GetRes.typeErr` (indexing a non-table, uncaught).
Requirement parsing (`pkg_resources.parse_requirements`) is modelled as
total: a requirement keeps its original text and exposes the specifier name
(`Requirement.name`, the leading name characters); `str(req)` is modelled as
the original text, which is exact for canonical specifier strings such as
`"a==1"`.  The serializer needs object identity for its cycle check, so it
is additionally embedded over a heap of table ids with explicit fuel;
Python's unbounded recursion corresponds to the result being fuel-exhausted
at every fuel.
-/

/-- The leading specifier-name characters of a requirement string, as
`packaging`/`pkg_resources` expose it via `Requirement.name` for a
well-formed specifier: letters, digits, dots, underscores and hyphens. -/
def extractName (s : String) : String :=
  String.mk (s.data.takeWhile (fun c => c.isAlphanum || c = '.' || c = '_' || c = '-'))

/-- A parsed requirement: canonical name plus the full specifier text. -/
structure Req where
  name : String
  text : String
deriving DecidableEq, Repr

/-- Model of `pkg_resources.Requirement.parse` on one specifier string. -/
def parseReq (s : String) : Req := ⟨extractName s, s⟩

/-- Values of a pyproject document tree: strings, arrays of strings, nested
tables (ordered key/value lists).  This is the spec's StructuredDocument
model restricted to the shapes the tracked fields can hold. -/
inductive TVal where
  | str : String → TVal
  | arr : List String → TVal
  | table : List (String × TVal) → TVal

mutual

/-- Structural equality of document values.  Python's script-entry
comparison is `str(old) != str(new)`; `str`/`repr` is injective on the
value shapes of this model, so structural equality models it exactly. -/
def TVal.beq : TVal → TVal → Bool
  | .str a, .str b => a == b
  | .arr a, .arr b => a == b
  | .table a, .table b => TVal.beqL a b
  | _, _ => false

/-- Structural equality of table entry lists. -/
def TVal.beqL : List (String × TVal) → List (String × TVal) → Bool
  | [], [] => true
  | (k, v) :: r, (k', v') :: r' => k == k' && TVal.beq v v' && TVal.beqL r r'
  | _, _ => false

end

/-- Result of a chained dictionary lookup `x["k1"]["k2"]…`. -/
inductive GetRes where
  | found : TVal → GetRes
  | missing : GetRes
  | typeErr : GetRes

/-- First-occurrence association-list lookup (Python dict keys are unique,
so first-occurrence semantics coincides with dict lookup). -/
def lookupTV : List (String × TVal) → String → Option TVal
  | [], _ => none
  | (k, v) :: rest, key => if k = key then some v else lookupTV rest key

/-- Chained lookup along a key path.  A table lacking the key raises
`KeyError` (modelled `.missing`, caught by `merge_old_new`); indexing a
non-table raises `TypeError` (modelled `.typeErr`, not caught). -/
def getT : List String → TVal → GetRes
  | [], v => .found v
  | k :: ps, .table kvs =>
    match lookupTV kvs k with
    | some v => getT ps v
    | none => .missing
  | _ :: _, _ => .typeErr

/-- Replace the value of the first occurrence of a key. -/
def updTV : List (String × TVal) → String → TVal → List (String × TVal)
  | [], _, _ => []
  | (k, v) :: rest, key, nv =>
    if k = key then (k, nv) :: rest else (k, v) :: updTV rest key nv

/-- Write a new value at a key path; identity where the path does not lead
into tables (the reconciler only writes to paths it has just read). -/
def setT : List String → TVal → TVal → TVal
  | [], nv, _ => nv
  | k :: ps, nv, .table kvs =>
    .table (match lookupTV kvs k with
      | some v => updTV kvs k (setT ps nv v)
      | none => kvs)
  | _ :: _, _, v => v

/-- Model of `pkg_resources.parse_requirements` applied to a toml value, as
the code does at cli.py lines 332-333.  Iterating a Python list parses each
element, a single string is one specification line, and iterating a dict
parses its keys.  Parsing itself is modelled as total (the spec's data model
promises well-formed specifier strings). -/
def parseVal : TVal → List Req
  | .arr xs => xs.map parseReq
  | .str s => [parseReq s]
  | .table kvs => kvs.map (fun kv => parseReq kv.1)

/-- The per-field dependency merge of cli.py lines 335-353, on parsed
requirement lists: `to_keep` is the new entries whose name exists in old;
if it is shorter than the new list the field is replaced by `to_keep`
(counting every kept entry), and every old entry whose name is absent from
new is appended (counting one each).  Returns the final field contents, the
amount added to `updated`, and whether any list mutation happened. -/
def mergeParsed (old new : List Req) : List String × Nat × Bool :=
  let newkeys := new.map Req.name
  let oldkeys := old.map Req.name
  let to_keep := (new.filter (fun d => oldkeys.contains d.name)).map Req.text
  let base :=
    if to_keep.length ≠ new.length then (to_keep, to_keep.length)
    else (new.map Req.text, 0)
  let added := (old.filter (fun d => !(newkeys.contains d.name))).map Req.text
  (base.1 ++ added, base.2 + added.length,
    decide (to_keep.length ≠ new.length) || !added.isEmpty)

/-- The spec's description of the merged field (§4.1 net effect): the NEW
entries whose canonical name also occurs in OLD, in NEW's order, followed by
the OLD entries whose canonical name does not occur in NEW, in OLD's order.
This definition follows the spec's words, to be compared with `mergeParsed`,
which is translated from the code. -/
def specMergeField (old new : List String) : List String :=
  new.filter (fun s => (old.map (fun t => (parseReq t).name)).contains (parseReq s).name)
    ++ old.filter (fun s => !((new.map (fun t => (parseReq t).name)).contains (parseReq s).name))

/-- The three dependency-list field paths (cli.py lines 326-330). -/
def allDepPaths : List (List String) :=
  [["project", "dependencies"],
   ["project", "optional-dependencies", "dev"],
   ["project", "optional-dependencies", "docs"]]

/-- The two script-entry field paths (cli.py lines 358-361). -/
def allScriptPaths : List (List String) :=
  [["xsetup", "entry_points", "console_scripts"],
   ["xsetup", "console_scripts"]]

/-- Reconciler state: the OLD document, the NEW document being mutated in
place, and the `updated` counter. -/
structure MSt where
  oldD : TVal
  newD : TVal
  updated : Nat

/-- One iteration of the dependency loop (cli.py lines 331-355) for one
field path.  A `KeyError` from either lookup is caught and the field is
skipped; a `TypeError` propagates.  Replacing the field contents requires
the new value to be a Python list: when no mutation is needed the field is
left alone, and a required mutation on a non-list is an uncaught attribute
error (the spec's data model keeps these fields as arrays). -/
def stepDep (p : List String) (st : MSt) : Except Unit MSt :=
  match getT p st.oldD with
  | .missing => .ok st
  | .typeErr => .error ()
  | .found oldV =>
    match getT p st.newD with
    | .missing => .ok st
    | .typeErr => .error ()
    | .found newV =>
      let (f, c, mutated) := mergeParsed (parseVal oldV) (parseVal newV)
      match newV with
      | .arr _ => .ok { st with newD := setT p (.arr f) st.newD, updated := st.updated + c }
      | _ => if mutated then .error () else .ok st

/-- What Python iteration yields on each value shape: a list gives its
elements, a dict gives its keys, a string gives its characters — this is
what `new.extend(old)` appends. -/
def iterTV : TVal → List String
  | .arr xs => xs
  | .table kvs => kvs.map Prod.fst
  | .str s => s.data.map (fun c => String.mk [c])

/-- One iteration of the script-entry loop (cli.py lines 358-369) for one
field path.  If both values are present and their string forms differ, the
code runs `new.clear(); new.extend(old)` in place; `updated` is not
touched.  String forms of distinct list-of-string values always differ
(Python `str` is injective there).  The in-place `clear`/`extend` succeeds
exactly when the new value is a Python list — `list.extend` accepts any
iterable, so a list-valued old field is copied verbatim, a table-valued one
contributes its keys, and a string-valued one its characters — while on a
non-list new value the `clear`/`extend` is an uncaught attribute error. -/
def stepScript (p : List String) (st : MSt) : Except Unit MSt :=
  match getT p st.oldD with
  | .missing => .ok st
  | .typeErr => .error ()
  | .found oldV =>
    match getT p st.newD with
    | .missing => .ok st
    | .typeErr => .error ()
    | .found newV =>
      if TVal.beq oldV newV then .ok st
      else
        match newV with
        | .arr _ => .ok { st with newD := setT p (.arr (iterTV oldV)) st.newD }
        | _ => .error ()

/-- Run a field-processing step over a list of field paths, stopping at the
first uncaught exception (loops at cli.py lines 326 and 358). -/
def runSteps (f : List String → MSt → Except Unit MSt) :
    List (List String) → MSt → Except Unit MSt
  | [], st => .ok st
  | p :: ps, st =>
    match f p st with
    | .ok st' => runSteps f ps st'
    | .error e => .error e

/-- `merge_old_new` (cli.py lines 317-374): run the dependency loop, then
the script loop; the returned boolean is whether the file is rewritten
(`updated > 0`, line 372). -/
def merge_old_new (oldD newD : TVal) : Except Unit (MSt × Bool) :=
  match runSteps stepDep allDepPaths ⟨oldD, newD, 0⟩ with
  | .error e => .error e
  | .ok st1 =>
    match runSteps stepScript allScriptPaths st1 with
    | .error e => .error e
    | .ok st2 => .ok (st2, decide (0 < st2.updated))

/-! ### Basic lemmas about the merge model -/

theorem parseReq_text (s : String) : (parseReq s).text = s := rfl

mutual

theorem TVal.beq_refl : ∀ v : TVal, TVal.beq v v = true
  | .str _ => by simp [TVal.beq]
  | .arr _ => by simp [TVal.beq]
  | .table kvs => by simp only [TVal.beq]; exact TVal.beqL_refl kvs

theorem TVal.beqL_refl : ∀ l, TVal.beqL l l = true
  | [] => rfl
  | (k, v) :: r => by
      simp only [TVal.beqL, Bool.and_eq_true, beq_self_eq_true, true_and]
      exact ⟨TVal.beq_refl v, TVal.beqL_refl r⟩

end

/-- Filtering the parsed requirements of a string list by a predicate on the
canonical name and taking the texts back is filtering the strings. -/
theorem filter_parse_text (p : String → Bool) (xs : List String) :
    ((xs.map parseReq).filter (fun d => p d.name)).map Req.text
      = xs.filter (fun s => p (parseReq s).name) := by
  induction xs with
  | nil => rfl
  | cons a t ih =>
    by_cases hp : p (parseReq a).name = true
    · simp only [List.map_cons, List.filter_cons, hp, if_true, List.map_cons, ih,
        parseReq_text]
    · simp only [List.map_cons, List.filter_cons, hp, Bool.false_eq_true, if_false, ih]

/-- A filter that drops nothing (witnessed by its length) is the identity. -/
theorem filter_of_length_eq {α : Type} (p : α → Bool) (l : List α)
    (h : (l.filter p).length = l.length) : l.filter p = l := by
  induction l with
  | nil => rfl
  | cons a t ih =>
    by_cases hp : p a = true
    · simp only [List.filter_cons, hp, if_true, List.length_cons] at h ⊢
      exact congrArg (a :: ·) (ih (by omega))
    · exfalso
      simp only [List.filter_cons, hp] at h
      have h2 := List.length_filter_le p t
      simp only [Bool.false_eq_true, if_false, List.length_cons] at h
      omega

theorem updTV_lookup_self : ∀ (kvs : List (String × TVal)) (k : String) (v : TVal),
    lookupTV kvs k = some v → updTV kvs k v = kvs
  | [], _, _, h => by simp [lookupTV] at h
  | (k', v') :: rest, k, v, h => by
    by_cases he : k' = k
    · simp only [lookupTV, he, if_true] at h
      simp only [updTV, he, if_true]
      exact congrArg (fun w => (k, w) :: rest) (Option.some.inj h).symm
    · simp only [lookupTV, he, if_false] at h
      simp only [updTV, he, if_false]
      exact congrArg _ (updTV_lookup_self rest k v h)

/-- Writing back the value just read leaves the document unchanged. -/
theorem setT_getT : ∀ (p : List String) (d v : TVal),
    getT p d = .found v → setT p v d = d
  | [], d, v, h => by
    simp only [getT, GetRes.found.injEq] at h
    simp [setT, h]
  | k :: ps, .str s, v, h => by simp [getT] at h
  | k :: ps, .arr xs, v, h => by simp [getT] at h
  | k :: ps, .table kvs, v, h => by
    simp only [getT] at h
    cases hl : lookupTV kvs k with
    | none => rw [hl] at h; simp at h
    | some w =>
      rw [hl] at h
      simp only [setT, hl]
      rw [setT_getT ps w v h, updTV_lookup_self kvs k w hl]

/-- Merging a parsed requirement list with itself keeps every entry, counts
nothing, and performs no list mutation. -/
theorem mergeParsed_self (R : List Req) :
    mergeParsed R R = (R.map Req.text, 0, false) := by
  have hkeep : R.filter (fun d => (R.map Req.name).contains d.name) = R :=
    List.filter_eq_self.mpr (fun d hd => List.elem_iff.mpr (List.mem_map_of_mem Req.name hd))
  have hadd : R.filter (fun d => !((R.map Req.name).contains d.name)) = [] := by
    apply List.filter_eq_nil_iff.mpr
    intro d hd
    have hc : (R.map Req.name).contains d.name = true :=
      List.elem_iff.mpr (List.mem_map_of_mem Req.name hd)
    simp only [hc, Bool.not_true]
    exact Bool.false_ne_true
  simp only [mergeParsed]
  rw [hkeep, hadd]
  simp

/-- The merged dependency field equals the kept new entries followed by the
appended old-only entries, in both branches of the replacement test. -/
theorem mergeParsed_eq_keep_append (oldR newR : List Req) :
    (mergeParsed oldR newR).1 =
      (newR.filter (fun d => (oldR.map Req.name).contains d.name)).map Req.text
        ++ (oldR.filter (fun d => !((newR.map Req.name).contains d.name))).map Req.text := by
  simp only [mergeParsed]
  by_cases h : ((newR.filter (fun d => (oldR.map Req.name).contains d.name)).map
      Req.text).length ≠ newR.length
  · rw [if_pos h]
  · rw [if_neg h]
    push_neg at h
    have hfix : newR.filter (fun d => (oldR.map Req.name).contains d.name) = newR :=
      filter_of_length_eq _ _ (by simpa [List.length_map] using h)
    rw [hfix]

/-- Claim C1 (amended): for a dependency-list field present in both OLD and
NEW, the merged field equals the NEW entries whose canonical name also
occurs in OLD, in NEW's order, followed by the OLD entries whose canonical
name does not occur in NEW, in OLD's order; on the spec's concrete example
`merge({"a==1","b==2"}, {"a==2","c==3"})` the field is `["a==2","b==2"]`
(the appended old-only entry keeps OLD's version `b==2`, not `b==1` as the
original claim stated). -/
theorem merged_field_follows_spec_rule :
    (∀ old new : List String,
      (mergeParsed (old.map parseReq) (new.map parseReq)).1 = specMergeField old new)
    ∧ (mergeParsed (["a==1", "b==2"].map parseReq) (["a==2", "c==3"].map parseReq)).1
        = ["a==2", "b==2"] := by
  constructor
  · intro old new
    rw [mergeParsed_eq_keep_append,
      filter_parse_text (fun nm => ((old.map parseReq).map Req.name).contains nm) new,
      filter_parse_text (fun nm => !(((new.map parseReq).map Req.name).contains nm)) old]
    simp only [specMergeField, List.map_map]
    rfl
  · decide

/-- Claim C1, counterexample: on the spec's own example the merged field is
not `["a==2","b==1"]` (the code appends OLD's entry `b==2` verbatim). -/
theorem merge_example_counterexample :
    (mergeParsed (["a==1", "b==2"].map parseReq) (["a==2", "c==3"].map parseReq)).1
      ≠ ["a==2", "b==1"] := by decide

/-- Claim C2: the per-field change count is the number of kept entries when
the keep-filtered list is strictly shorter than the full NEW list (zero from
the replace step otherwise), plus one per OLD entry whose canonical name is
absent from NEW.  `stepDep` adds exactly this amount to `updated`. -/
theorem change_count_formula (oldR newR : List Req) :
    (mergeParsed oldR newR).2.1 =
      (if (newR.filter (fun d => (oldR.map Req.name).contains d.name)).length < newR.length
        then (newR.filter (fun d => (oldR.map Req.name).contains d.name)).length
        else 0)
      + (oldR.filter (fun d => !((newR.map Req.name).contains d.name))).length := by
  simp only [mergeParsed]
  have hle := List.length_filter_le (fun d => (oldR.map Req.name).contains d.name) newR
  by_cases h : (newR.filter (fun d => (oldR.map Req.name).contains d.name)).length
      = newR.length
  · have hc : ¬(((newR.filter (fun d => (oldR.map Req.name).contains d.name)).map
        Req.text).length ≠ newR.length) := by
      rw [List.length_map]; exact not_not_intro h
    rw [if_neg hc, if_neg (by omega)]
    simp [List.length_map]
  · have hlt : (newR.filter (fun d => (oldR.map Req.name).contains d.name)).length
        < newR.length := Nat.lt_of_le_of_ne hle h
    have hc : ((newR.filter (fun d => (oldR.map Req.name).contains d.name)).map
        Req.text).length ≠ newR.length := by
      rw [List.length_map]; exact h
    rw [if_pos hc, if_pos hlt]
    simp [List.length_map]

/-- A dependency step on a state whose OLD and NEW documents are the same
document leaves the state untouched, provided the chain raises no
`TypeError`. -/
theorem stepDep_self (p : List String) (d : TVal) (n : Nat)
    (h : getT p d ≠ .typeErr) :
    stepDep p ⟨d, d, n⟩ = .ok ⟨d, d, n⟩ := by
  cases hv : getT p d with
  | missing => simp [stepDep, hv]
  | typeErr => exact absurd hv h
  | found v =>
    have hm := mergeParsed_self (parseVal v)
    cases v with
    | arr xs =>
      have htext : (parseVal (.arr xs)).map Req.text = xs := by
        simp only [parseVal, List.map_map]
        exact List.map_id xs
      simp only [stepDep, hv, hm, htext]
      rw [setT_getT p d (.arr xs) hv]
      simp
    | str s => simp [stepDep, hv, hm]
    | table kvs => simp [stepDep, hv, hm]

/-- A script step on a state whose OLD and NEW documents are the same
document leaves the state untouched, provided the chain raises no
`TypeError`. -/
theorem stepScript_self (p : List String) (d : TVal) (n : Nat)
    (h : getT p d ≠ .typeErr) :
    stepScript p ⟨d, d, n⟩ = .ok ⟨d, d, n⟩ := by
  cases hv : getT p d with
  | missing => simp [stepScript, hv]
  | typeErr => exact absurd hv h
  | found v => simp [stepScript, hv, TVal.beq_refl v]

/-- Whether a chained lookup avoids Python's uncaught `TypeError`. -/
def notTypeErr : GetRes → Bool
  | .typeErr => false
  | _ => true

/-- All five tracked field chains of a document either resolve or fail with
a caught `KeyError` (no non-table value sits along a chain). -/
def pathsOkB (d : TVal) : Bool :=
  (allDepPaths ++ allScriptPaths).all (fun p => notTypeErr (getT p d))

theorem notTypeErr_ne (g : GetRes) (hg : notTypeErr g = true) : g ≠ .typeErr := by
  cases g <;> simp_all [notTypeErr]

/-- Claim C9 (amended): reconciling a document with itself yields change
count 0, leaves the document unchanged, and does not rewrite the file —
provided no tracked field chain runs through a non-table value (such a
value raises an uncaught `TypeError` in the code). -/
theorem self_merge_identity (d : TVal) (h : pathsOkB d = true) :
    merge_old_new d d = .ok (⟨d, d, 0⟩, false) := by
  simp only [pathsOkB, allDepPaths, allScriptPaths, List.cons_append, List.nil_append,
    List.all_cons, List.all_nil, Bool.and_eq_true, and_true] at h
  obtain ⟨h1, h2, h3, h4, h5⟩ := h
  simp [merge_old_new, allDepPaths, allScriptPaths, runSteps,
    stepDep_self _ _ _ (notTypeErr_ne _ h1),
    stepDep_self _ _ _ (notTypeErr_ne _ h2),
    stepDep_self _ _ _ (notTypeErr_ne _ h3),
    stepScript_self _ _ _ (notTypeErr_ne _ h4),
    stepScript_self _ _ _ (notTypeErr_ne _ h5)]

/-- A document whose `project` key holds a string: every tracked chain is
missing, but the lookup `x["project"]["dependencies"]` raises `TypeError`. -/
def typeErrDoc : TVal := .table [("project", .str "oops")]

/-- Claim C9, counterexample: reconciling `typeErrDoc` with itself does not
yield change count 0 and an unchanged document — the first dependency-field
lookup indexes a string and the uncaught `TypeError` aborts the merge. -/
theorem self_merge_counterexample :
    merge_old_new typeErrDoc typeErrDoc = .error () := rfl

/-- A well-shaped document used to instantiate the self-merge theorem. -/
def idemDoc : TVal :=
  .table [("project", .table [("dependencies", .arr ["click", "toml==0.10.2"])])]

/-- Witness: the self-merge theorem applied to a concrete document. -/
theorem self_merge_identity_witness :
    merge_old_new idemDoc idemDoc = .ok (⟨idemDoc, idemDoc, 0⟩, false) :=
  self_merge_identity idemDoc (by decide)

/-- Claim C3 (amended): a tracked field whose key chain is missing (a
caught `KeyError`) in OLD — or missing in NEW while OLD's chain raises no
`TypeError` — is skipped: the state, including the NEW document and the
change counter, is returned unchanged and processing continues.  A
non-table value along OLD's chain instead raises an uncaught `TypeError`,
even when the chain is missing in NEW. -/
theorem missing_field_skipped (st : MSt) (p : List String)
    (h : getT p st.oldD = .missing ∨
      (getT p st.oldD ≠ .typeErr ∧ getT p st.newD = .missing)) :
    stepDep p st = .ok st ∧ stepScript p st = .ok st := by
  rcases h with h | ⟨h1, h2⟩
  · constructor <;> simp [stepDep, stepScript, h]
  · cases hv : getT p st.oldD with
    | missing => constructor <;> simp [stepDep, stepScript, hv]
    | typeErr => exact absurd hv h1
    | found v => constructor <;> simp [stepDep, stepScript, hv, h2]

/-- A pair of documents on which the original claim C3 fails: the chain
`project.dependencies` is missing in NEW (and in OLD, whose `project` key
holds a string), yet the merge aborts instead of skipping the field. -/
theorem missing_chain_counterexample :
    getT ["project", "dependencies"] (TVal.table []) = .missing ∧
    stepDep ["project", "dependencies"] ⟨typeErrDoc, .table [], 0⟩ = .error () ∧
    merge_old_new typeErrDoc (.table []) = .error () :=
  ⟨rfl, rfl, rfl⟩

/-- Witness: the skip theorem applied to a state whose dependency chain is
missing in both documents. -/
theorem missing_field_skipped_witness :
    stepDep ["project", "dependencies"] ⟨.table [], .table [], 0⟩
        = .ok ⟨.table [], .table [], 0⟩ ∧
      stepScript ["project", "dependencies"] ⟨.table [], .table [], 0⟩
        = .ok ⟨.table [], .table [], 0⟩ :=
  missing_field_skipped ⟨.table [], .table [], 0⟩ ["project", "dependencies"] (Or.inl rfl)

/-- Claim C4 (amended): a script-entry field present in both documents
whose values differ is replaced wholesale by OLD's value — with the change
counter untouched — when both values are arrays.  Outside that shape the
wholesale-replacement claim fails: a list-valued NEW is refilled with the
iteration of OLD (a table contributes its keys, not its value), and a
non-list NEW raises an uncaught attribute error that aborts the merge (see
the shape counterexample). -/
theorem script_field_replaced (st : MSt) (p : List String) (xs ys : List String)
    (hold : getT p st.oldD = .found (.arr xs))
    (hnew : getT p st.newD = .found (.arr ys))
    (hne : xs ≠ ys) :
    stepScript p st = .ok ⟨st.oldD, setT p (.arr xs) st.newD, st.updated⟩ := by
  have hbeq : TVal.beq (.arr xs) (.arr ys) = false := by
    simp [TVal.beq]
    exact hne
  simp [stepScript, hold, hnew, hbeq, iterTV]

/-- The spec's script-entry example as OLD and NEW documents. -/
def scriptOldDoc : TVal :=
  .table [("xsetup", .table [("console_scripts", .arr ["cmd=pkg:main"])])]

/-- The NEW side of the script-entry example. -/
def scriptNewDoc : TVal :=
  .table [("xsetup", .table [("console_scripts", .arr ["cmd2=pkg:other"])])]

/-- Witness: the replacement theorem applied to the spec's example; the
merged value is OLD's `["cmd=pkg:main"]` and the counter stays 0. -/
theorem script_field_replaced_witness :
    stepScript ["xsetup", "console_scripts"] ⟨scriptOldDoc, scriptNewDoc, 0⟩ =
      .ok ⟨scriptOldDoc,
        setT ["xsetup", "console_scripts"] (.arr ["cmd=pkg:main"]) scriptNewDoc, 0⟩ :=
  script_field_replaced ⟨scriptOldDoc, scriptNewDoc, 0⟩ ["xsetup", "console_scripts"]
    ["cmd=pkg:main"] ["cmd2=pkg:other"] rfl rfl (by decide)

/-- OLD with a table-valued script-entry field — a shape the spec's
ScriptEntrySet explicitly allows ("an array of strings (or nested
table)"). -/
def shapeOldDoc : TVal :=
  .table [("xsetup", .table [("console_scripts", .table [("cmd", .str "pkg:main")])])]

/-- The in-memory result of merging `shapeOldDoc` into `scriptNewDoc`: the
list is refilled with the table's keys. -/
def shapeKeysDoc : TVal :=
  .table [("xsetup", .table [("console_scripts", .arr ["cmd"])])]

/-- Claim C4, counterexample: with OLD's script field a table and NEW's a
differing list, the merge completes but NEW's field becomes `["cmd"]` —
the keys of OLD's table, not OLD's value (their string forms differ) — so
the replacement is not wholesale; and with OLD's field a list and NEW's a
table, the in-place `clear`/`extend` aborts the whole merge with an
uncaught error instead of replacing anything. -/
theorem script_replace_shape_counterexample :
    merge_old_new shapeOldDoc scriptNewDoc
        = .ok (⟨shapeOldDoc, shapeKeysDoc, 0⟩, false) ∧
      getT ["xsetup", "console_scripts"] shapeOldDoc
        = .found (.table [("cmd", .str "pkg:main")]) ∧
      getT ["xsetup", "console_scripts"] shapeKeysDoc = .found (.arr ["cmd"]) ∧
      TVal.beq (.arr ["cmd"]) (.table [("cmd", .str "pkg:main")]) = false ∧
      merge_old_new scriptOldDoc shapeOldDoc = .error () :=
  ⟨rfl, rfl, rfl, rfl, rfl⟩

/-- A dependency step never writes to the OLD document. -/
theorem stepDep_oldD (p : List String) (s s' : MSt) (h : stepDep p s = .ok s') :
    s'.oldD = s.oldD := by
  unfold stepDep at h
  repeat' split at h
  all_goals cases h <;> rfl

/-- A script step never writes to the OLD document. -/
theorem stepScript_oldD (p : List String) (s s' : MSt) (h : stepScript p s = .ok s') :
    s'.oldD = s.oldD := by
  unfold stepScript at h
  repeat' split at h
  all_goals cases h <;> rfl

/-- A script step never touches the change counter. -/
theorem stepScript_updated (p : List String) (s s' : MSt)
    (h : stepScript p s = .ok s') : s'.updated = s.updated := by
  unfold stepScript at h
  repeat' split at h
  all_goals cases h <;> rfl

/-- Running steps preserves any state component each step preserves. -/
theorem runSteps_oldD (f : List String → MSt → Except Unit MSt)
    (hf : ∀ p s s', f p s = .ok s' → s'.oldD = s.oldD) :
    ∀ ps st st', runSteps f ps st = .ok st' → st'.oldD = st.oldD
  | [], st, st', h => by cases h; rfl
  | p :: ps, st, st', h => by
    simp only [runSteps] at h
    cases hs : f p st with
    | error e => rw [hs] at h; cases h
    | ok s1 =>
      rw [hs] at h
      exact (runSteps_oldD f hf ps s1 st' h).trans (hf p st s1 hs)

/-- Running script steps preserves the change counter. -/
theorem runSteps_script_updated :
    ∀ ps st st', runSteps stepScript ps st = .ok st' → st'.updated = st.updated
  | [], st, st', h => by cases h; rfl
  | p :: ps, st, st', h => by
    simp only [runSteps] at h
    cases hs : stepScript p st with
    | error e => rw [hs] at h; cases h
    | ok s1 =>
      rw [hs] at h
      exact (runSteps_script_updated ps s1 st' h).trans (stepScript_updated p st s1 hs)

/-- If every step either fixes the state or raises, a successful run fixes
the state. -/
theorem runSteps_fixed (f : List String → MSt → Except Unit MSt)
    (ps : List (List String)) (st st' : MSt)
    (hsteps : ∀ p ∈ ps, f p st = .ok st ∨ f p st = .error ())
    (h : runSteps f ps st = .ok st') : st' = st := by
  induction ps with
  | nil => cases h; rfl
  | cons p ps ih =>
    simp only [runSteps] at h
    rcases hsteps p (List.mem_cons_self p ps) with hp | hp <;> rw [hp] at h
    · exact ih (fun q hq => hsteps q (List.mem_cons_of_mem p hq)) h
    · cases h

/-- A dependency step whose field reads identically from OLD and NEW either
leaves the state unchanged or raises. -/
theorem stepDep_eq_skip (p : List String) (st : MSt)
    (heq : getT p st.oldD = getT p st.newD) :
    stepDep p st = .ok st ∨ stepDep p st = .error () := by
  cases hv : getT p st.oldD with
  | missing => left; simp [stepDep, hv]
  | typeErr => right; simp [stepDep, hv]
  | found v =>
    have hnew : getT p st.newD = .found v := heq.symm.trans hv
    have hm := mergeParsed_self (parseVal v)
    cases v with
    | arr xs =>
      left
      have htext : (parseVal (.arr xs)).map Req.text = xs := by
        simp only [parseVal, List.map_map]
        exact List.map_id xs
      simp only [stepDep, hv, hnew, hm, htext]
      rw [setT_getT p st.newD (.arr xs) hnew]
      simp
    | str s => left; simp [stepDep, hv, hnew, hm]
    | table kvs => left; simp [stepDep, hv, hnew, hm]

/-- Claim C8 (amended): reconciliation never mutates the OLD document — it
mutates only the NEW document in place — and what it reports is its
dependency change counter (the rewrite flag is exactly `updated > 0`),
which can be zero even though a script-entry replacement changed NEW. -/
theorem merge_frame_and_report (oldD newD : TVal) (st : MSt) (b : Bool)
    (h : merge_old_new oldD newD = .ok (st, b)) :
    st.oldD = oldD ∧ (b = true ↔ 0 < st.updated) := by
  unfold merge_old_new at h
  split at h
  · cases h
  · rename_i st1 h1
    split at h
    · cases h
    · rename_i st2 h2
      injection h with h3
      have hst : st2 = st := congrArg Prod.fst h3
      have hb : decide (0 < st2.updated) = b := congrArg Prod.snd h3
      subst hst
      constructor
      · exact ((runSteps_oldD stepScript stepScript_oldD allScriptPaths st1 st2 h2).trans
          (runSteps_oldD stepDep stepDep_oldD allDepPaths ⟨oldD, newD, 0⟩ st1 h1))
      · rw [← hb]
        simp

/-- The in-memory result of merging the script-entry example documents. -/
def scriptMergedDoc : TVal :=
  .table [("xsetup", .table [("console_scripts", .arr ["cmd=pkg:main"])])]

/-- Claim C8, counterexample: on documents that agree on every dependency
field but differ in a script-entry field, the merge changes NEW in memory
(the script value becomes OLD's) yet reports no change: the counter is 0
and the rewrite flag is false. -/
theorem frame_report_counterexample :
    merge_old_new scriptOldDoc scriptNewDoc
        = .ok (⟨scriptOldDoc, scriptMergedDoc, 0⟩, false) ∧
      getT ["xsetup", "console_scripts"] scriptNewDoc = .found (.arr ["cmd2=pkg:other"]) ∧
      getT ["xsetup", "console_scripts"] scriptMergedDoc = .found (.arr ["cmd=pkg:main"]) :=
  ⟨rfl, rfl, rfl⟩

/-- Witness: the frame-and-report theorem applied to the example merge. -/
theorem merge_frame_and_report_witness :
    (MSt.mk scriptOldDoc scriptMergedDoc 0).oldD = scriptOldDoc ∧
      (false = true ↔ 0 < (MSt.mk scriptOldDoc scriptMergedDoc 0).updated) :=
  merge_frame_and_report scriptOldDoc scriptNewDoc (MSt.mk scriptOldDoc scriptMergedDoc 0)
    false rfl

/-- Claim C10: the manifest file is rewritten exactly when the dependency
change counter is positive; in particular, when every dependency field
reads identically from OLD and NEW, the counter is 0 and the file is not
rewritten, even though script-entry fields may have been replaced in
memory. -/
theorem persist_iff_dep_count (oldD newD : TVal) (st : MSt) (b : Bool)
    (h : merge_old_new oldD newD = .ok (st, b)) :
    (b = true ↔ 0 < st.updated) ∧
      ((∀ p ∈ allDepPaths, getT p oldD = getT p newD) → st.updated = 0 ∧ b = false) := by
  unfold merge_old_new at h
  split at h
  · cases h
  · rename_i st1 h1
    split at h
    · cases h
    · rename_i st2 h2
      injection h with h3
      have hst : st2 = st := congrArg Prod.fst h3
      have hb : decide (0 < st2.updated) = b := congrArg Prod.snd h3
      subst hst
      constructor
      · rw [← hb]; simp
      · intro hdep
        have hfix : st1 = ⟨oldD, newD, 0⟩ := by
          apply runSteps_fixed stepDep allDepPaths ⟨oldD, newD, 0⟩ st1 _ h1
          intro p hp
          exact stepDep_eq_skip p ⟨oldD, newD, 0⟩ (hdep p hp)
        have hupd : st2.updated = 0 := by
          rw [runSteps_script_updated allScriptPaths st1 st2 h2, hfix]
        refine ⟨hupd, ?_⟩
        rw [← hb, hupd]
        simp

/-- Witness: the persistence theorem applied to a merge whose dependency
fields agree (all three chains are missing on both sides) while the
script-entry fields differ even in shape — OLD's is a table, NEW's a list —
a pair on which the code completes with counter 0 and no rewrite. -/
theorem persist_iff_dep_count_witness :
    (false = true ↔ 0 < (MSt.mk shapeOldDoc shapeKeysDoc 0).updated) ∧
      ((MSt.mk shapeOldDoc shapeKeysDoc 0).updated = 0 ∧ false = false) := by
  have h := persist_iff_dep_count shapeOldDoc scriptNewDoc
    (MSt.mk shapeOldDoc shapeKeysDoc 0) false rfl
  refine ⟨h.1, h.2 ?_⟩
  intro p hp
  fin_cases hp <;> rfl

/-! ### The array serializer: `CustomEncoder.dump_list` (cli.py 446-461)

`dump_list` first renders every element with the base encoder's
`dump_value`, collecting the results in `t`, then runs a while-loop that
emits one line per non-list entry of `t` and splices the entries of any
list entry into the next round.  In the `toml` library, `dump_funcs` sends
a Python `int` to itself, a `str` through `_dump_str`, and a `list` to
`self.dump_list` — which returns a string.  `Dumped` is the type of values
the loop can see; its `lst` constructor exists because the loop tests
`isinstance(u, list)`, even though `dump_value` never produces one. -/

/-- Array element values: integers, strings, nested arrays. -/
inductive AVal where
  | int : Int → AVal
  | str : String → AVal
  | list : List AVal → AVal

/-- A value produced by `dump_value` as the flattening loop sees it. -/
inductive Dumped where
  | int : Int → Dumped
  | str : String → Dumped
  | lst : List Dumped → Dumped

mutual

/-- Size of a dumped value, the measure by which each loop pass shrinks. -/
def dSize : Dumped → Nat
  | .int _ => 1
  | .str _ => 1
  | .lst xs => 1 + dSizeL xs

/-- Total size of a list of dumped values. -/
def dSizeL : List Dumped → Nat
  | [] => 0
  | d :: ds => dSize d + dSizeL ds

end

/-- One pass of the loop, list side: the entries of list elements are
appended in order into the next round's worklist `s`. -/
def childrenOf : List Dumped → List Dumped
  | [] => []
  | .lst r :: rest => r ++ childrenOf rest
  | _ :: rest => childrenOf rest

/-- One pass of the loop, string side: each non-list element emits
`"    " + str(u) + separator`; `str` of a Python int is its decimal form
and `str` of an already-rendered string is itself. -/
def emitPass (sep : String) : List Dumped → String
  | [] => ""
  | .lst _ :: rest => emitPass sep rest
  | .int n :: rest => "    " ++ toString n ++ sep ++ emitPass sep rest
  | .str s :: rest => "    " ++ s ++ sep ++ emitPass sep rest

/-- The `while t != []` loop of `dump_list`, with explicit fuel.  Each pass
appends its emissions to `retval` and continues on the spliced children;
`dSizeL t + 1` fuel always suffices because every pass strictly shrinks the
total size (`childrenOf_size_lt`). -/
def dumpLoopF (sep : String) : Nat → List Dumped → String → String
  | 0, _, retval => retval
  | _ + 1, [], retval => retval
  | fuel + 1, t, retval => dumpLoopF sep fuel (childrenOf t) (retval ++ emitPass sep t)

/-- `dump_list`'s body after the elements have been rendered: start from
`"[\n"`, run the loop, close with `"]\n"`. -/
def dumpListFrom (sep : String) (t : List Dumped) : String :=
  dumpLoopF sep (dSizeL t + 1) t "[\n" ++ "]\n"

mutual

/-- The base encoder's `dump_value` (toml library): ints pass through,
strings are quoted (escaping elided: the development only uses strings
without quotes, backslashes or control characters), and lists are rendered
by the overridden `dump_list` — to a string, not a list. -/
def dump_value (sep : String) : AVal → Dumped
  | .int n => .int n
  | .str s => .str ("\"" ++ s ++ "\"")
  | .list xs => .str (dumpListFrom sep (dumpVals sep xs))

/-- The element-rendering loop `for u in v: t.append(self.dump_value(u))`. -/
def dumpVals (sep : String) : List AVal → List Dumped
  | [] => []
  | a :: as => dump_value sep a :: dumpVals sep as

end

/-- `CustomEncoder.dump_list` (cli.py 446-461). -/
def dump_list (sep : String) (v : List AVal) : String :=
  dumpListFrom sep (dumpVals sep v)

/-- The separator `CustomEncoder` is constructed with (cli.py 438). -/
def defaultSep : String := ",\n"

/-- Whether a dumped value is a Python list (`isinstance(u, list)`). -/
def isLst : Dumped → Bool
  | .lst _ => true
  | _ => false

/-- How a non-list dumped value prints (`str(u)` in the loop; the loop
never applies it to a list). -/
def strOfDumped : Dumped → String
  | .int n => toString n
  | .str s => s
  | .lst _ => ""

/-- Concatenation of rendered pieces. -/
def joinAll : List String → String
  | [] => ""
  | s :: rest => s ++ joinAll rest

theorem dumpLoopF_nil (sep : String) : ∀ (n : Nat) (r : String),
    dumpLoopF sep n [] r = r
  | 0, _ => rfl
  | _ + 1, _ => rfl

/-- `dump_value` never returns a Python list: ints stay ints and both
strings and nested lists come back as strings. -/
theorem dump_value_not_lst (sep : String) (a : AVal) :
    isLst (dump_value sep a) = false := by
  cases a <;> rfl

theorem dumpVals_not_lst (sep : String) (v : List AVal) :
    ∀ u ∈ dumpVals sep v, isLst u = false := by
  induction v with
  | nil => intro u hu; cases hu
  | cons a as ih =>
    intro u hu
    cases hu with
    | head => exact dump_value_not_lst sep a
    | tail _ h => exact ih u h

theorem childrenOf_eq_nil (t : List Dumped) (h : ∀ u ∈ t, isLst u = false) :
    childrenOf t = [] := by
  induction t with
  | nil => rfl
  | cons u rest ih =>
    have hu := h u (List.mem_cons_self u rest)
    have hr := fun w hw => h w (List.mem_cons_of_mem u hw)
    cases u with
    | lst r => simp [isLst] at hu
    | int n => simp [childrenOf]; exact ih hr
    | str s => simp [childrenOf]; exact ih hr

theorem emitPass_join (sep : String) (t : List Dumped)
    (h : ∀ u ∈ t, isLst u = false) :
    emitPass sep t = joinAll (t.map (fun u => "    " ++ strOfDumped u ++ sep)) := by
  induction t with
  | nil => rfl
  | cons u rest ih =>
    have hu := h u (List.mem_cons_self u rest)
    have hr := fun w hw => h w (List.mem_cons_of_mem u hw)
    cases u with
    | lst r => simp [isLst] at hu
    | int n =>
      simp only [emitPass, List.map_cons, joinAll, strOfDumped, ih hr]
    | str s =>
      simp only [emitPass, List.map_cons, joinAll, strOfDumped, ih hr]

/-- On a worklist without Python lists — the only kind `dump_value` can
produce — the while-loop makes exactly one emitting pass. -/
theorem dumpLoopF_single_pass (sep : String) (t : List Dumped) (r : String)
    (h : ∀ u ∈ t, isLst u = false) :
    dumpLoopF sep (dSizeL t + 1) t r = r ++ emitPass sep t := by
  cases t with
  | nil => simp [dumpLoopF, emitPass, String.append_empty]
  | cons u rest =>
    show dumpLoopF sep (dSizeL (u :: rest)) (childrenOf (u :: rest))
        (r ++ emitPass sep (u :: rest)) = r ++ emitPass sep (u :: rest)
    rw [childrenOf_eq_nil (u :: rest) h, dumpLoopF_nil]

/-- Claim C6 (amended): an array renders as a bracketed block with exactly
one rendered element per top-level element — each line `"    "` + rendered
element + separator — but nested arrays are not flattened: a nested array
is pre-rendered by `dump_value` into its own bracketed block, which is
emitted inline as a single element, because the loop's flattening branch
only fires on Python lists and `dump_value` never returns one.  On
`{"x": [1,2,[3,4]]}` the block contains the lines `1,` and `2,` followed by
the nested block of `[3,4]`, not four flat lines. -/
theorem dump_list_per_element_lines :
    (∀ (sep : String) (v : List AVal),
      dump_list sep v =
        ("[\n" ++ joinAll ((dumpVals sep v).map (fun u => "    " ++ strOfDumped u ++ sep)))
          ++ "]\n")
    ∧ dump_list ",\n" [.int 1, .int 2, .list [.int 3, .int 4]]
        = "[\n    1,\n    2,\n    [\n    3,\n    4,\n]\n,\n]\n" := by
  constructor
  · intro sep v
    unfold dump_list dumpListFrom
    rw [dumpLoopF_single_pass sep (dumpVals sep v) "[\n" (dumpVals_not_lst sep v),
      emitPass_join sep (dumpVals sep v) (dumpVals_not_lst sep v)]
  · rfl

/-- Claim C6, counterexample: serializing the array `[1,2,[3,4]]` does not
produce the four flat lines `1,` `2,` `3,` `4,` that the claim states. -/
theorem dump_list_no_flattening_counterexample :
    dump_list ",\n" [.int 1, .int 2, .list [.int 3, .int 4]]
      ≠ "[\n    1,\n    2,\n    3,\n    4,\n]\n" := by decide

/-! ### The custom `dumps` and its cycle check (cli.py 464-506)

`dumps` needs Python object identity (`id(...)`) for its cycle check, so
tables are modelled as entries of a heap indexed by numeric ids; a table
holds its scalar entries (already rendered to key/value text) and its
sub-table references in declaration order.  The recursion carries explicit
fuel: Python's unbounded recursion on a cyclic document corresponds to the
result being `fuelOut` at every fuel. -/

/-- A table on the heap: rendered scalar entries and named sub-tables. -/
structure HTable where
  scalars : List (String × String)
  subs : List (String × Nat)

/-- A heap of tables indexed by identity. -/
def HHeap := List (Nat × HTable)

/-- Heap lookup by table id. -/
def lookupH : HHeap → Nat → Option HTable
  | [], _ => none
  | (i, t) :: rest, j => if i = j then some t else lookupH rest j

/-- The scalar body a table contributes (`dump_sections`' first result). -/
def renderScalarsH : List (String × String) → String
  | [] => ""
  | (k, v) :: rest => k ++ " = " ++ v ++ "\n" ++ renderScalarsH rest

/-- `prefix + "." + s` when a prefix is present, else `s` (cli.py 496 and
500-503). -/
def joinPre (pre s : String) : String := if pre = "" then s else pre ++ "." ++ s

/-- `retval[-2:] == "\n\n"` (cli.py 494). -/
def endsTwoNl (s : String) : Bool :=
  match s.data.reverse with
  | '\n' :: '\n' :: _ => true
  | _ => false

/-- Outcome of a `dumps` call: a rendered string, the circular-reference
`ValueError`, or exhaustion of the fuel (Python: still recursing). -/
inductive DRes where
  | ok : String → DRes
  | circular : DRes
  | fuelOut : DRes

/-- The custom `dumps` (cli.py 464-506).  The check at lines 482-488
compares only `id(o)` against the ids of `o`'s immediate sections; each
section's scalar body is emitted inline and only the section's sub-tables
are passed to the recursive call. -/
def dumpsF (heap : HHeap) : Nat → Nat → String → DRes
  | 0, _, _ => .fuelOut
  | fuel + 1, t, pre =>
    match lookupH heap t with
    | none => .ok ""
    | some tbl =>
      let addto := renderScalarsH tbl.scalars
      let retval := if pre ≠ "" ∧ addto ≠ "" then "[" ++ pre ++ "]\n" ++ addto else addto
      if tbl.subs.any (fun q => q.2 == t) then .circular
      else
        tbl.subs.foldl (fun acc sec =>
          match acc with
          | .ok r =>
            match lookupH heap sec.2 with
            | none => .ok r
            | some stbl =>
              let sAdd := renderScalarsH stbl.scalars
              let r1 := if sAdd ≠ "" ∨ stbl.subs.isEmpty then
                  (if r ≠ "" ∧ ¬ endsTwoNl r then r ++ "\n" else r)
                    ++ "[" ++ joinPre pre sec.1 ++ "]\n" ++ sAdd
                else r
              stbl.subs.foldl (fun acc2 g =>
                match acc2 with
                | .ok r2 =>
                  match dumpsF heap fuel g.2 (joinPre (joinPre pre sec.1) g.1) with
                  | .ok piece => .ok (r2 ++ piece)
                  | e => e
                | e => e) (.ok r1)
          | e => e) (.ok retval)

/-- A two-table cycle: table 0 contains table 1 under key `a`, and table 1
contains table 0 back under key `b` — so table 0 is its own descendant at
depth two. -/
def cycHeap : HHeap :=
  [(0, ⟨[("k", "v")], [("a", 1)]⟩), (1, ⟨[], [("b", 0)]⟩)]

/-- On the two-table cycle, rendering the root only ever recurses: at every
fuel the result is `fuelOut`, never `circular` and never a string. -/
theorem cycHeap_never_circular :
    ∀ (n : Nat) (pre : String), dumpsF cycHeap n 0 pre = .fuelOut := by
  intro n
  induction n with
  | zero => intro pre; rfl
  | succ m ih =>
    intro pre
    have ih2 : ∀ q, dumpsF [(0, ⟨[("k", "v")], [("a", 1)]⟩), (1, ⟨[], [("b", 0)]⟩)] m 0 q
        = .fuelOut := ih
    simp [dumpsF, cycHeap, lookupH, ih2]

/-- Claim C5 (amended): the serializer's cycle check only compares a table
passed to `dumps` against its immediate sub-tables, so a table that
contains itself as a direct child is reported as a circular reference, but
a longer cycle (a table that re-appears as its own descendant at depth two
or more) is never detected: rendering recurses without bound — Python
raises `RecursionError`, not the circular-reference `ValueError`. -/
theorem cycle_detection_immediate_only :
    (∀ (heap : HHeap) (t : Nat) (tbl : HTable) (pre : String) (fuel : Nat),
      lookupH heap t = some tbl → tbl.subs.any (fun q => q.2 == t) = true →
      dumpsF heap (fuel + 1) t pre = .circular)
    ∧ (∀ (fuel : Nat) (pre : String), dumpsF cycHeap fuel 0 pre = .fuelOut) := by
  constructor
  · intro heap t tbl pre fuel hl ha
    simp [dumpsF, hl, ha]
  · exact cycHeap_never_circular

/-- A table that contains itself as an immediate sub-table. -/
def selfHeap : HHeap := [(5, ⟨[("x", "1")], [("loop", 5)]⟩)]

/-- Witness: the immediate self-reference is caught as circular. -/
theorem cycle_detection_immediate_only_witness :
    dumpsF selfHeap 3 5 "" = .circular :=
  cycle_detection_immediate_only.1 selfHeap 5 ⟨[("x", "1")], [("loop", 5)]⟩ "" 2 rfl rfl

/-- Claim C5, counterexample: on the depth-two cycle the render at fuel
1000 (far beyond the two-table document) is still recursing — the claimed
`CircularReferenceError` is never produced. -/
theorem cycle_detection_counterexample :
    dumpsF cycHeap 1000 0 "" = .fuelOut :=
  cycHeap_never_circular 1000 ""

/-! ### Round-tripping `dumps` through `toml.load` (claim C7)

For the round-trip law the serializer is embedded a second time, over plain
trees (`SVal`): a tree cannot alias itself, so the cycle check never fires
and is omitted, and the recursion is fueled by `sizeOf`, which always
suffices.  The value universe is the fragment the tracked documents use:
string scalars and nested tables.  `toml.load` is modelled line by line: the
text is split on newline characters; a `[a.b]` header selects (and creates,
in first-mention order) the table at that dotted path; a `key = "value"`
line appends the pair to the current table; blank lines are skipped. -/

/-- Document values for the round-trip development. -/
inductive SVal where
  | str : String → SVal
  | table : List (String × SVal) → SVal

/-- A table body: ordered key/value entries. -/
abbrev SDoc := List (String × SVal)

/-- `_dump_str` for plain strings (no quotes, backslashes or control
characters): quote wrapping with no escapes needed. -/
def dumpStr (s : String) : String := "\"" ++ s ++ "\""

/-- The scalar body of a table (`dump_sections`' text result): one
`key = "value"` line per string entry, in order; tables are deferred. -/
def renderScalars : SDoc → String
  | [] => ""
  | (k, SVal.str s) :: rest => k ++ " = " ++ dumpStr s ++ "\n" ++ renderScalars rest
  | (_, SVal.table _) :: rest => renderScalars rest

/-- The sub-tables of a table (`dump_sections`' section dictionary), in
declaration order. -/
def sectionsOf : SDoc → List (String × SDoc)
  | [] => []
  | (_, SVal.str _) :: rest => sectionsOf rest
  | (k, SVal.table akvs) :: rest => (k, akvs) :: sectionsOf rest

/-- The custom `dumps` on trees (cli.py 464-506, cycle check omitted: tree
documents cannot contain themselves).  Structure as in `dumpsF`: the
caller's scalars first (with a `[prefix]` header when both the prefix and
the body are non-empty), then per section a blank-line separator when
needed, the section header and its scalar body, then recursion into the
section's sub-tables. -/
def dumpsVF : Nat → SDoc → String → String
  | 0, _, _ => ""
  | fuel + 1, kvs, pre =>
    let addto := renderScalars kvs
    let retval := if pre ≠ "" ∧ addto ≠ "" then "[" ++ pre ++ "]\n" ++ addto else addto
    (sectionsOf kvs).foldl (fun r sec =>
      let sAdd := renderScalars sec.2
      let r1 := if sAdd ≠ "" ∨ (sectionsOf sec.2).isEmpty then
          (if r ≠ "" ∧ ¬ endsTwoNl r then r ++ "\n" else r)
            ++ "[" ++ joinPre pre sec.1 ++ "]\n" ++ sAdd
        else r
      (sectionsOf sec.2).foldl (fun r2 g =>
        r2 ++ dumpsVF fuel g.2 (joinPre (joinPre pre sec.1) g.1)) r1) retval

mutual

/-- Size of a value, used as the fuel bound for `dumpsVF`. -/
def sSize : SVal → Nat
  | .str _ => 1
  | .table kvs => 1 + sSizeL kvs

/-- Size of a table body. -/
def sSizeL : SDoc → Nat
  | [] => 1
  | (_, v) :: rest => 1 + sSize v + sSizeL rest

end

/-- `dumps` on a whole document: the root call has the empty prefix, and
size fuel is always enough (each recursion descends two levels). -/
def dumps (kvs : SDoc) : String := dumpsVF (sSizeL kvs) kvs ""

/-- Split a character list at every occurrence of a character; mirrors how
`toml.load` consumes its input line by line when splitting on `'\n'`, and
how a dotted header path splits on `'.'`. -/
def splitCh (c : Char) : List Char → List (List Char)
  | [] => [[]]
  | a :: rest =>
    if a = c then [] :: splitCh c rest
    else
      match splitCh c rest with
      | l :: ls => (a :: l) :: ls
      | [] => [[a]]

/-- Association lookup in a table body. -/
def lookupS : SDoc → String → Option SVal
  | [], _ => none
  | (k, v) :: rest, key => if k = key then some v else lookupS rest key

/-- Replace the first occurrence of a key in a table body. -/
def replaceS : SDoc → String → SVal → SDoc
  | [], _, _ => []
  | (k, v) :: rest, key, nv =>
    if k = key then (k, nv) :: rest else (k, v) :: replaceS rest key nv

/-- Walk (and create, as `toml.load` does for a header's dotted path) the
chain of tables named by a path. -/
def ensurePath : SDoc → List String → SDoc
  | t, [] => t
  | t, k :: ps =>
    match lookupS t k with
    | some (SVal.table sub) => replaceS t k (.table (ensurePath sub ps))
    | some (SVal.str _) => t
    | none => t ++ [(k, .table (ensurePath [] ps))]

/-- Append a key/value pair to the table at a path (the effect of a
`key = value` line under the current header). -/
def insertKV : SDoc → List String → String → SVal → SDoc
  | t, [], k, v => t ++ [(k, v)]
  | t, c :: cs, k, v =>
    match lookupS t c with
    | some (SVal.table sub) => replaceS t c (.table (insertKV sub cs k v))
    | _ => t

/-- Parse a `[a.b.c]` header line. -/
def parseHeaderLine (l : List Char) : Option (List String) :=
  match l with
  | '[' :: rest =>
    match rest.getLast? with
    | some ']' => some ((splitCh '.' rest.dropLast).map String.mk)
    | _ => none
  | _ => none

/-- Parse a `key = "value"` line. -/
def parseKVLine (l : List Char) : Option (String × String) :=
  match l.dropWhile (fun c => c ≠ ' ') with
  | ' ' :: '=' :: ' ' :: '"' :: vrest =>
    match vrest.getLast? with
    | some '"' =>
      some (String.mk (l.takeWhile (fun c => c ≠ ' ')), String.mk vrest.dropLast)
    | _ => none
  | _ => none

/-- Parsing state: the document built so far and the current table path. -/
structure PSt where
  root : SDoc
  cur : List String

/-- Process one line: skip blanks, enter a header, or record a key/value. -/
def procLine (st : PSt) (l : List Char) : Option PSt :=
  if l.isEmpty then some st
  else
    match parseHeaderLine l with
    | some path => some ⟨ensurePath st.root path, path⟩
    | none =>
      match parseKVLine l with
      | some (k, v) => some ⟨insertKV st.root st.cur k (.str v), st.cur⟩
      | none => none

/-- Process lines in order, failing on the first unparsable line. -/
def procLines : PSt → List (List Char) → Option PSt
  | st, [] => some st
  | st, l :: rest =>
    match procLine st l with
    | some st' => procLines st' rest
    | none => none

/-- The model of `toml.load` on a rendered document. -/
def parseToml (s : String) : Option SDoc :=
  (procLines ⟨[], []⟩ (splitCh '\n' s.data)).map PSt.root

/-! #### Lines and characters -/

/-- Join lines, terminating each with a newline. -/
def unlinesC : List (List Char) → List Char
  | [] => []
  | l :: ls => l ++ '\n' :: unlinesC ls

theorem unlinesC_append (a b : List (List Char)) :
    unlinesC (a ++ b) = unlinesC a ++ unlinesC b := by
  induction a with
  | nil => rfl
  | cons l ls ih => simp [unlinesC, ih]

theorem splitCh_sepFree (c : Char) (l : List Char) (h : ∀ x ∈ l, x ≠ c) :
    splitCh c l = [l] := by
  induction l with
  | nil => rfl
  | cons a rest ih =>
    have ha : a ≠ c := h a (List.mem_cons_self a rest)
    have hr := ih (fun x hx => h x (List.mem_cons_of_mem a hx))
    simp [splitCh, ha, hr]

theorem splitCh_append (c : Char) (a b : List Char) (h : ∀ x ∈ a, x ≠ c) :
    splitCh c (a ++ c :: b) = a :: splitCh c b := by
  induction a with
  | nil => simp [splitCh]
  | cons x rest ih =>
    have hx : x ≠ c := h x (List.mem_cons_self x rest)
    have hr := ih (fun y hy => h y (List.mem_cons_of_mem x hy))
    simp [splitCh, hx, hr]

theorem splitCh_unlinesC (ls : List (List Char))
    (h : ∀ l ∈ ls, ∀ x ∈ l, x ≠ '\n') :
    splitCh '\n' (unlinesC ls) = ls ++ [[]] := by
  induction ls with
  | nil => rfl
  | cons l rest ih =>
    have hl := h l (List.mem_cons_self l rest)
    have hr := ih (fun m hm => h m (List.mem_cons_of_mem l hm))
    simp only [unlinesC, List.cons_append]
    rw [splitCh_append '\n' l (unlinesC rest) hl, hr]

theorem unlinesC_ne_nil (ls : List (List Char)) (h : ls ≠ []) :
    unlinesC ls ≠ [] := by
  cases ls with
  | nil => exact absurd rfl h
  | cons l rest => cases l <;> simp [unlinesC]

/-- A string whose lines end with a nonempty newline-free line does not end
in a blank line. -/
theorem endsTwoNl_of_lines (s : String) (ls : List (List Char)) (l : List Char)
    (hdata : s.data = unlinesC ls)
    (hlast : ls.getLast? = some l) (hne : l ≠ []) (hnl : ∀ x ∈ l, x ≠ '\n') :
    endsTwoNl s = false := by
  obtain ⟨init, rfl⟩ : ∃ init, ls = init ++ [l] := by
    rcases List.eq_nil_or_concat ls with h0 | ⟨init, last, rfl⟩
    · rw [h0] at hlast; cases hlast
    · have hll : last = l := by simpa using hlast
      exact ⟨init, by rw [List.concat_eq_append, hll]⟩
  unfold endsTwoNl
  rw [hdata, unlinesC_append]
  cases hl : l.reverse with
  | nil => exact absurd (by simpa using hl) hne
  | cons x xs =>
    have hx : x ≠ '\n' := hnl x (by
      have : x ∈ l.reverse := by rw [hl]; exact List.mem_cons_self x xs
      exact List.mem_reverse.mp this)
    simp only [unlinesC, List.append_nil, List.reverse_append, List.reverse_cons,
      List.reverse_nil, List.nil_append, List.append_assoc, List.cons_append, hl]
    simp [hx]

/-! #### Well-formed documents -/

/-- A bare key as the `toml` format writes it unquoted:
non-empty, over `[A-Za-z0-9_-]`. -/
def bareKey (k : String) : Bool :=
  !k.data.isEmpty && k.data.all (fun c => c.isAlphanum || c = '_' || c = '-')

/-- A plain string value: no control characters (in particular no
newlines), no quotes, no backslashes — `_dump_str` writes it verbatim. -/
def plainStr (s : String) : Bool :=
  s.data.all (fun c => 32 ≤ c.toNat && c ≠ '"' && c ≠ '\\')

/-- Whether a table body has at least one string entry. -/
def hasScalar : SDoc → Bool
  | [] => false
  | (_, SVal.str _) :: _ => true
  | (_, SVal.table _) :: rest => hasScalar rest

/-- Whether every entry of a table body is a sub-table. -/
def allTables : SDoc → Bool
  | [] => true
  | (_, SVal.table _) :: rest => allTables rest
  | _ => false

/-- Whether all string entries precede all table entries. -/
def scalarsFirst : SDoc → Bool
  | [] => true
  | (_, SVal.str _) :: rest => scalarsFirst rest
  | (_, SVal.table _) :: rest => allTables rest

/-- Whether a key is absent from a table body. -/
def keyAbsent (k : String) : SDoc → Bool
  | [] => true
  | (k', _) :: rest => !(k' == k) && keyAbsent k rest

/-- Whether the keys of a table body are pairwise distinct. -/
def nodupKeys : SDoc → Bool
  | [] => true
  | (k, _) :: rest => keyAbsent k rest && nodupKeys rest

mutual

/-- A value fit for round-tripping: a plain string, or a sub-table with
bare distinct keys, at least one scalar entry, scalars before sub-tables,
and recursively well-formed entries. -/
def goodSub : SVal → Bool
  | .str s => plainStr s
  | .table akvs =>
    hasScalar akvs && nodupKeys akvs && scalarsFirst akvs && goodEntries akvs

/-- All entries of a table body are well-formed with bare keys. -/
def goodEntries : SDoc → Bool
  | [] => true
  | (k, v) :: rest => bareKey k && goodSub v && goodEntries rest

end

/-- A root document fit for round-tripping (the root itself needs no
scalar entry and carries no header). -/
def goodRoot (kvs : SDoc) : Bool :=
  nodupKeys kvs && scalarsFirst kvs && goodEntries kvs

/-! #### The rendered line structure -/

/-- The dotted rendering of a section path. -/
def dotted : List String → String
  | [] => ""
  | [k] => k
  | k :: rest => k ++ "." ++ dotted rest

/-- A `key = "value"` line, as characters, without the newline. -/
def kvLine (k s : String) : List Char :=
  k.data ++ (' ' :: '=' :: ' ' :: '"' :: (s.data ++ ['"']))

/-- A `[a.b]` header line, as characters, without the newline. -/
def headerLine (d : String) : List Char := '[' :: (d.data ++ [']'])

/-- The scalar lines of a table body, in order. -/
def scalarLines : SDoc → List (List Char)
  | [] => []
  | (k, SVal.str s) :: rest => kvLine k s :: scalarLines rest
  | (_, SVal.table _) :: rest => scalarLines rest

mutual

/-- The lines a section of a `dumps` call contributes: a blank separator,
its header and scalar body, then its sub-tables as recursive calls. -/
def rawSecOf (path : List String) (g : String) : SVal → List (List Char)
  | .str _ => []
  | .table gkvs =>
    ([] :: headerLine (dotted (path ++ [g])) :: scalarLines gkvs)
      ++ rawGrand (path ++ [g]) gkvs

/-- The lines of all sections of a table body, in order. -/
def rawSections (path : List String) : SDoc → List (List Char)
  | [] => []
  | (g, v) :: rest => rawSecOf path g v ++ rawSections path rest

/-- The lines a sub-table of a section contributes: a recursive `dumps`
call, whose output opens with its own header (no blank separator) and
scalar body, followed by its sections. -/
def rawGrandOf (path : List String) (h : String) : SVal → List (List Char)
  | .str _ => []
  | .table hkvs =>
    headerLine (dotted (path ++ [h])) :: scalarLines hkvs
      ++ rawSections (path ++ [h]) hkvs

/-- The lines of all sub-tables of a section, in order. -/
def rawGrand (path : List String) : SDoc → List (List Char)
  | [] => []
  | (h, v) :: rest => rawGrandOf path h v ++ rawGrand path rest

end

/-! #### Character classes and line parsing -/

/-- All keys of a path are bare. -/
def pathOk (p : List String) : Bool := p.all bareKey

theorem bareKey_chars (k : String) (hk : bareKey k = true) :
    ∀ c ∈ k.data, (c.isAlphanum || c = '_' || c = '-') = true := by
  have := (Bool.and_eq_true _ _).mp hk
  exact fun c hc => List.all_eq_true.mp this.2 c hc

theorem bareKey_ne_nil (k : String) (hk : bareKey k = true) : k.data ≠ [] := by
  have := (Bool.and_eq_true _ _).mp hk
  simpa using this.1

theorem bare_char_ne (c : Char) (hc : (c.isAlphanum || c = '_' || c = '-') = true) :
    c ≠ '.' ∧ c ≠ '\n' ∧ c ≠ ' ' ∧ c ≠ '[' ∧ c ≠ '"' := by
  refine ⟨?_, ?_, ?_, ?_, ?_⟩ <;> (intro h; subst h; exact absurd hc (by decide))

theorem plain_char_ne (c : Char) (hc : (32 ≤ c.toNat && c ≠ '"' && c ≠ '\\') = true) :
    c ≠ '\n' := by
  intro h; subst h; exact absurd hc (by decide)

theorem plainStr_nlFree (s : String) (hs : plainStr s = true) :
    ∀ c ∈ s.data, c ≠ '\n' := fun c hc =>
  plain_char_ne c (List.all_eq_true.mp hs c hc)

theorem kvLine_ne_nil (k s : String) (hk : bareKey k = true) : kvLine k s ≠ [] := by
  unfold kvLine
  cases hd : k.data with
  | nil => exact absurd hd (bareKey_ne_nil k hk)
  | cons c cs => simp

theorem kvLine_nlFree (k s : String) (hk : bareKey k = true) (hs : plainStr s = true) :
    ∀ x ∈ kvLine k s, x ≠ '\n' := by
  intro x hx
  unfold kvLine at hx
  simp only [List.mem_append, List.mem_cons, List.mem_singleton,
    List.not_mem_nil, or_false] at hx
  rcases hx with h | h | h | h | h | h | h
  · exact (bare_char_ne x (bareKey_chars k hk x h)).2.1
  · subst h; decide
  · subst h; decide
  · subst h; decide
  · subst h; decide
  · exact plainStr_nlFree s hs x h
  · subst h; decide

theorem or3_to_or4 (a b c d : Bool) (h : (a || b || c) = true) :
    (a || b || c || d) = true := by
  simp only [Bool.or_eq_true] at h ⊢
  tauto

/-- Every character of a dotted bare path is a bare character or a dot. -/
theorem dotted_chars : ∀ (p : List String), pathOk p = true →
    ∀ c ∈ (dotted p).data, (c.isAlphanum || c = '_' || c = '-' || c = '.') = true
  | [], _, c, hc => by simp [dotted] at hc
  | [k], hp, c, hc => by
    simp only [dotted] at hc
    have hk : bareKey k = true := by simpa [pathOk] using hp
    exact or3_to_or4 _ _ _ _ (bareKey_chars k hk c hc)
  | k :: k2 :: rest, hp, c, hc => by
    simp only [dotted, String.data_append] at hc
    have hk : bareKey k = true := by
      simp only [pathOk, List.all_cons, Bool.and_eq_true] at hp
      exact hp.1
    have hrest : pathOk (k2 :: rest) = true := by
      simp only [pathOk, List.all_cons, Bool.and_eq_true] at hp ⊢
      exact ⟨hp.2.1, hp.2.2⟩
    simp only [List.mem_append, List.mem_singleton] at hc
    rcases hc with (h | h) | h
    · exact or3_to_or4 _ _ _ _ (bareKey_chars k hk c h)
    · subst h; decide
    · exact dotted_chars (k2 :: rest) hrest c h

theorem dotted_nlFree (p : List String) (hp : pathOk p = true) :
    ∀ c ∈ (dotted p).data, c ≠ '\n' := by
  intro c hc heq
  subst heq
  exact absurd (dotted_chars p hp _ hc) (by decide)

theorem headerLine_nlFree (p : List String) (hp : pathOk p = true) :
    ∀ x ∈ headerLine (dotted p), x ≠ '\n' := by
  intro x hx
  unfold headerLine at hx
  simp only [List.mem_cons, List.mem_append, List.mem_singleton] at hx
  rcases hx with h | h | h | h
  · subst h; decide
  · exact dotted_nlFree p hp x h
  · subst h; decide
  · cases h

theorem takeWhile_append_all {α : Type} (p : α → Bool) (a b : List α)
    (h : ∀ x ∈ a, p x = true) :
    List.takeWhile p (a ++ b) = a ++ List.takeWhile p b := by
  induction a with
  | nil => rfl
  | cons x rest ih =>
    have hx := h x (List.mem_cons_self x rest)
    simp only [List.cons_append, List.takeWhile_cons, hx, if_true]
    rw [ih (fun y hy => h y (List.mem_cons_of_mem x hy))]

theorem dropWhile_append_all {α : Type} (p : α → Bool) (a b : List α)
    (h : ∀ x ∈ a, p x = true) :
    List.dropWhile p (a ++ b) = List.dropWhile p b := by
  induction a with
  | nil => rfl
  | cons x rest ih =>
    have hx := h x (List.mem_cons_self x rest)
    simp only [List.cons_append, List.dropWhile_cons, hx, if_true]
    exact ih (fun y hy => h y (List.mem_cons_of_mem x hy))

theorem mk_data_eta (s : String) : String.mk s.data = s := rfl

/-- A well-formed key/value line parses back to its key and value. -/
theorem parseKVLine_round (k s : String) (hk : bareKey k = true)
    (hs : plainStr s = true) :
    parseKVLine (kvLine k s) = some (k, s) := by
  have hkchars : ∀ x ∈ k.data, (fun c => decide (c ≠ ' ')) x = true := by
    intro x hx
    simp only [decide_eq_true_eq]
    exact (bare_char_ne x (bareKey_chars k hk x hx)).2.2.1
  unfold parseKVLine kvLine
  rw [dropWhile_append_all _ k.data _ hkchars,
    takeWhile_append_all _ k.data _ hkchars]
  have h1 : List.dropWhile (fun c => decide (c ≠ ' '))
      (' ' :: '=' :: ' ' :: '"' :: (s.data ++ ['"']))
      = ' ' :: '=' :: ' ' :: '"' :: (s.data ++ ['"']) := rfl
  rw [h1]
  simp only [List.getLast?_concat, List.dropLast_concat, List.takeWhile_cons]
  simp [mk_data_eta]

/-- A line beginning with a non-bracket character is not a header line. -/
theorem parseHeaderLine_other (c : Char) (rest : List Char) (hc : c ≠ '[') :
    parseHeaderLine (c :: rest) = none := by
  unfold parseHeaderLine
  split
  · rename_i heq
    injection heq with h1 _
    exact absurd h1 hc
  · rfl

theorem kvLine_not_header (k s : String) (hk : bareKey k = true) :
    parseHeaderLine (kvLine k s) = none := by
  cases hdk : k.data with
  | nil => exact absurd hdk (bareKey_ne_nil k hk)
  | cons c cs =>
    have hc : c ≠ '[' := by
      have hmem : c ∈ k.data := by rw [hdk]; exact List.mem_cons_self c cs
      exact (bare_char_ne c (bareKey_chars k hk c hmem)).2.2.2.1
    unfold kvLine
    rw [hdk]
    exact parseHeaderLine_other c _ hc

/-- Splitting a dotted bare path on dots recovers the path. -/
theorem splitCh_dotted : ∀ (p : List String), pathOk p = true → p ≠ [] →
    splitCh '.' (dotted p).data = p.map String.data
  | [], _, hne => absurd rfl hne
  | [k], hp, _ => by
    have hk : bareKey k = true := by simpa [pathOk] using hp
    have : ∀ x ∈ k.data, x ≠ '.' := fun x hx =>
      (bare_char_ne x (bareKey_chars k hk x hx)).1
    simp only [dotted, List.map]
    exact splitCh_sepFree '.' k.data this
  | k :: k2 :: rest, hp, _ => by
    have hk : bareKey k = true := by
      simp only [pathOk, List.all_cons, Bool.and_eq_true] at hp
      exact hp.1
    have hrest : pathOk (k2 :: rest) = true := by
      simp only [pathOk, List.all_cons, Bool.and_eq_true] at hp ⊢
      exact ⟨hp.2.1, hp.2.2⟩
    have hdot : ∀ x ∈ k.data, x ≠ '.' := fun x hx =>
      (bare_char_ne x (bareKey_chars k hk x hx)).1
    have hih := splitCh_dotted (k2 :: rest) hrest (by simp)
    show splitCh '.' (k ++ "." ++ dotted (k2 :: rest)).data = _
    have hdata : (k ++ "." ++ dotted (k2 :: rest)).data
        = k.data ++ '.' :: (dotted (k2 :: rest)).data := by
      simp [String.data_append]
    rw [hdata, splitCh_append '.' k.data _ hdot, hih]
    rfl

/-- A well-formed header line parses back to its path. -/
theorem parseHeaderLine_round (p : List String) (hp : pathOk p = true)
    (hne : p ≠ []) :
    parseHeaderLine (headerLine (dotted p)) = some p := by
  unfold parseHeaderLine headerLine
  simp only [List.getLast?_concat, List.dropLast_concat]
  rw [splitCh_dotted p hp hne]
  simp only [List.map_map, Option.some.injEq]
  exact List.map_id p

/-! #### Paths, sizes and scalar bodies -/

theorem ne_empty_of_data (s : String) (h : s.data ≠ []) : s ≠ "" := by
  intro he; subst he; exact h rfl

theorem dotted_ne_empty (p : List String) (hp : pathOk p = true) (hne : p ≠ []) :
    dotted p ≠ "" := by
  apply ne_empty_of_data
  cases p with
  | nil => exact absurd rfl hne
  | cons k rest =>
    have hk : bareKey k = true := by
      simp only [pathOk, List.all_cons, Bool.and_eq_true] at hp
      exact hp.1
    have hkd := bareKey_ne_nil k hk
    cases rest with
    | nil =>
      simpa [dotted] using hkd
    | cons k2 r2 =>
      show (k ++ "." ++ dotted (k2 :: r2)).data ≠ []
      simp only [String.data_append]
      intro hcon
      exact hkd (List.append_eq_nil.mp (List.append_eq_nil.mp hcon).1).1

theorem pathOk_append (p : List String) (g : String) (hp : pathOk p = true)
    (hg : bareKey g = true) : pathOk (p ++ [g]) = true := by
  simp only [pathOk, List.all_append, List.all_cons, List.all_nil, Bool.and_eq_true] at hp ⊢
  exact ⟨hp, hg, trivial⟩

theorem joinPre_dotted : ∀ (p : List String) (g : String), pathOk p = true →
    joinPre (dotted p) g = dotted (p ++ [g])
  | [], g, _ => by simp [joinPre, dotted]
  | [k], g, hp => by
    have hk : bareKey k = true := by simpa [pathOk] using hp
    have : dotted [k] ≠ "" := dotted_ne_empty [k] hp (by simp)
    simp only [dotted, List.cons_append, List.nil_append, joinPre]
    rw [if_neg (by simpa [dotted] using this)]
  | k :: k2 :: rest, g, hp => by
    have hrest : pathOk (k2 :: rest) = true := by
      simp only [pathOk, List.all_cons, Bool.and_eq_true] at hp ⊢
      exact ⟨hp.2.1, hp.2.2⟩
    have hne : dotted (k :: k2 :: rest) ≠ "" :=
      dotted_ne_empty _ hp (by simp)
    have hih := joinPre_dotted (k2 :: rest) g hrest
    show joinPre (k ++ "." ++ dotted (k2 :: rest)) g
        = dotted (k :: (k2 :: rest) ++ [g])
    unfold joinPre at hih ⊢
    rw [if_neg (by simpa [dotted] using hne)]
    by_cases h2 : dotted (k2 :: rest) = ""
    · exact absurd h2 (dotted_ne_empty _ hrest (by simp))
    · rw [if_neg h2] at hih
      show k ++ "." ++ dotted (k2 :: rest) ++ "." ++ g = dotted (k :: (k2 :: rest ++ [g]))
      have : dotted (k :: (k2 :: rest ++ [g])) = k ++ "." ++ dotted (k2 :: rest ++ [g]) := by
        cases rest <;> rfl
      rw [this, ← hih]
      simp [String.append_assoc]

theorem sSizeL_pos : ∀ kvs : SDoc, 1 ≤ sSizeL kvs
  | [] => le_refl 1
  | (_, _) :: _ => by simp only [sSizeL]; omega

theorem sectionsOf_size : ∀ (kvs : SDoc) (g : String) (gkvs : SDoc),
    (g, gkvs) ∈ sectionsOf kvs → sSizeL gkvs < sSizeL kvs
  | [], g, gkvs, h => by simp [sectionsOf] at h
  | (k, SVal.str s) :: rest, g, gkvs, h => by
    have := sectionsOf_size rest g gkvs (by simpa [sectionsOf] using h)
    simp only [sSizeL]
    omega
  | (k, SVal.table akvs) :: rest, g, gkvs, h => by
    simp only [sectionsOf, List.mem_cons] at h
    rcases h with h | h
    · have : gkvs = akvs := congrArg Prod.snd h
      subst this
      simp only [sSizeL, sSize]
      omega
    · have := sectionsOf_size rest g gkvs h
      simp only [sSizeL]
      omega

theorem sectionsOf_mem : ∀ (kvs : SDoc) (g : String) (gkvs : SDoc),
    (g, gkvs) ∈ sectionsOf kvs → (g, SVal.table gkvs) ∈ kvs
  | [], g, gkvs, h => by simp [sectionsOf] at h
  | (k, SVal.str s) :: rest, g, gkvs, h => by
    have := sectionsOf_mem rest g gkvs (by simpa [sectionsOf] using h)
    exact List.mem_cons_of_mem _ this
  | (k, SVal.table akvs) :: rest, g, gkvs, h => by
    simp only [sectionsOf, List.mem_cons] at h
    rcases h with h | h
    · have h1 : g = k := congrArg Prod.fst h
      have h2 : gkvs = akvs := congrArg Prod.snd h
      subst h1; subst h2
      exact List.mem_cons_self _ _
    · exact List.mem_cons_of_mem _ (sectionsOf_mem rest g gkvs h)

theorem goodEntries_section : ∀ (kvs : SDoc) (g : String) (gkvs : SDoc),
    goodEntries kvs = true → (g, gkvs) ∈ sectionsOf kvs →
    bareKey g = true ∧ hasScalar gkvs = true ∧ nodupKeys gkvs = true ∧
      scalarsFirst gkvs = true ∧ goodEntries gkvs = true
  | [], g, gkvs, _, h => by simp [sectionsOf] at h
  | (k, SVal.str s) :: rest, g, gkvs, hg, h => by
    simp only [goodEntries, Bool.and_eq_true] at hg
    exact goodEntries_section rest g gkvs hg.2 (by simpa [sectionsOf] using h)
  | (k, SVal.table akvs) :: rest, g, gkvs, hg, h => by
    simp only [goodEntries, goodSub, Bool.and_eq_true] at hg
    obtain ⟨⟨hk, ⟨⟨h1, h2⟩, h3⟩, h4⟩, hrest⟩ := hg
    simp only [sectionsOf, List.mem_cons] at h
    rcases h with h | h
    · have e1 : g = k := congrArg Prod.fst h
      have e2 : gkvs = akvs := congrArg Prod.snd h
      subst e1; subst e2
      exact ⟨hk, h1, h2, h3, h4⟩
    · exact goodEntries_section rest g gkvs hrest h

theorem renderScalars_data : ∀ (kvs : SDoc),
    (renderScalars kvs).data = unlinesC (scalarLines kvs)
  | [] => rfl
  | (k, SVal.str s) :: rest => by
    show (k ++ " = " ++ dumpStr s ++ "\n" ++ renderScalars rest).data = _
    simp only [String.data_append, renderScalars_data rest]
    show k.data ++ [' ', '=', ' '] ++ ('"' :: (s.data ++ ['"'])) ++ ['\n']
        ++ unlinesC (scalarLines rest)
      = unlinesC (kvLine k s :: scalarLines rest)
    simp [unlinesC, kvLine]
  | (k, SVal.table akvs) :: rest => by
    show (renderScalars rest).data = unlinesC (scalarLines ((k, SVal.table akvs) :: rest))
    simp only [scalarLines]
    exact renderScalars_data rest

theorem scalarLines_ne_nil : ∀ kvs : SDoc, hasScalar kvs = true → scalarLines kvs ≠ []
  | [], h => by simp [hasScalar] at h
  | (k, SVal.str s) :: rest, _ => by simp [scalarLines]
  | (k, SVal.table akvs) :: rest, h => by
    simp only [scalarLines]
    exact scalarLines_ne_nil rest (by simpa [hasScalar] using h)

/-- Every scalar line of a well-formed table is nonempty and newline-free. -/
theorem scalarLines_wf : ∀ kvs : SDoc, goodEntries kvs = true →
    ∀ l ∈ scalarLines kvs, l ≠ [] ∧ ∀ x ∈ l, x ≠ '\n'
  | [], _, l, hl => by simp [scalarLines] at hl
  | (k, SVal.str s) :: rest, hg, l, hl => by
    simp only [goodEntries, goodSub, Bool.and_eq_true] at hg
    obtain ⟨⟨hk, hp⟩, hrest⟩ := hg
    simp only [scalarLines, List.mem_cons] at hl
    rcases hl with hl | hl
    · subst hl
      exact ⟨kvLine_ne_nil k s hk, kvLine_nlFree k s hk hp⟩
    · exact scalarLines_wf rest hrest l hl
  | (k, SVal.table akvs) :: rest, hg, l, hl => by
    simp only [goodEntries, Bool.and_eq_true] at hg
    simp only [scalarLines] at hl
    exact scalarLines_wf rest hg.2 l hl

/-! #### Last-line and newline-freeness invariants for rendered blocks -/

/-- No trailing blank line, and the last line has no newline. -/
def lastOkL (ls : List (List Char)) : Prop :=
  ∀ l, ls.getLast? = some l → l ≠ [] ∧ ∀ x ∈ l, x ≠ '\n'

theorem lastOkL_nil : lastOkL [] := by intro l h; cases h

theorem lastOkL_append (a b : List (List Char)) (ha : lastOkL a) (hb : lastOkL b) :
    lastOkL (a ++ b) := by
  intro l hl
  cases hbe : b with
  | nil => rw [hbe, List.append_nil] at hl; exact ha l hl
  | cons x xs =>
    rw [List.getLast?_append_of_ne_nil a (by simp [hbe])] at hl
    exact hb l hl

theorem lastOkL_of_all (ls : List (List Char))
    (h : ∀ l ∈ ls, l ≠ [] ∧ ∀ x ∈ l, x ≠ '\n') : lastOkL ls := by
  intro l hl
  exact h l (List.mem_of_mem_getLast? hl)

theorem lastOkL_cons_of_ne (x : List Char) (ls : List (List Char))
    (hne : ls ≠ []) (h : lastOkL ls) : lastOkL (x :: ls) := by
  intro l hl
  cases ls with
  | nil => exact absurd rfl hne
  | cons y ys =>
    rw [List.getLast?_cons_cons] at hl
    exact h l hl

mutual

theorem rawSecOf_nlFree : ∀ (path : List String) (g : String) (v : SVal),
    pathOk path = true → bareKey g = true → goodSub v = true →
    ∀ l ∈ rawSecOf path g v, ∀ x ∈ l, x ≠ '\n'
  | _, _, .str _, _, _, _, l, hl => by simp [rawSecOf] at hl
  | path, g, .table gkvs, hp, hg, hv, l, hl => by
    simp only [goodSub, Bool.and_eq_true] at hv
    obtain ⟨⟨⟨_, _⟩, _⟩, hge⟩ := hv
    have hpg : pathOk (path ++ [g]) = true := pathOk_append path g hp hg
    simp only [rawSecOf, List.cons_append, List.mem_cons, List.mem_append] at hl
    rcases hl with hl | hl | hl | hl
    · subst hl; intro x hx; cases hx
    · subst hl; exact headerLine_nlFree (path ++ [g]) hpg
    · exact fun x hx => (scalarLines_wf gkvs hge l hl).2 x hx
    · exact rawGrand_nlFree (path ++ [g]) gkvs hpg hge l hl

theorem rawSections_nlFree : ∀ (path : List String) (kvs : SDoc),
    pathOk path = true → goodEntries kvs = true →
    ∀ l ∈ rawSections path kvs, ∀ x ∈ l, x ≠ '\n'
  | _, [], _, _, l, hl => by simp [rawSections] at hl
  | path, (g, v) :: rest, hp, hg, l, hl => by
    simp only [goodEntries, Bool.and_eq_true] at hg
    obtain ⟨⟨hk, hv⟩, hrest⟩ := hg
    simp only [rawSections, List.mem_append] at hl
    rcases hl with hl | hl
    · exact rawSecOf_nlFree path g v hp hk hv l hl
    · exact rawSections_nlFree path rest hp hrest l hl

theorem rawGrandOf_nlFree : ∀ (path : List String) (h : String) (v : SVal),
    pathOk path = true → bareKey h = true → goodSub v = true →
    ∀ l ∈ rawGrandOf path h v, ∀ x ∈ l, x ≠ '\n'
  | _, _, .str _, _, _, _, l, hl => by simp [rawGrandOf] at hl
  | path, h, .table hkvs, hp, hh, hv, l, hl => by
    simp only [goodSub, Bool.and_eq_true] at hv
    obtain ⟨⟨⟨_, _⟩, _⟩, hge⟩ := hv
    have hph : pathOk (path ++ [h]) = true := pathOk_append path h hp hh
    simp only [rawGrandOf, List.mem_cons, List.mem_append, List.cons_append] at hl
    rcases hl with hl | hl | hl
    · subst hl; exact headerLine_nlFree (path ++ [h]) hph
    · exact fun x hx => (scalarLines_wf hkvs hge l hl).2 x hx
    · exact rawSections_nlFree (path ++ [h]) hkvs hph hge l hl

theorem rawGrand_nlFree : ∀ (path : List String) (kvs : SDoc),
    pathOk path = true → goodEntries kvs = true →
    ∀ l ∈ rawGrand path kvs, ∀ x ∈ l, x ≠ '\n'
  | _, [], _, _, l, hl => by simp [rawGrand] at hl
  | path, (g, v) :: rest, hp, hg, l, hl => by
    simp only [goodEntries, Bool.and_eq_true] at hg
    obtain ⟨⟨hk, hv⟩, hrest⟩ := hg
    simp only [rawGrand, List.mem_append] at hl
    rcases hl with hl | hl
    · exact rawGrandOf_nlFree path g v hp hk hv l hl
    · exact rawGrand_nlFree path rest hp hrest l hl

end

mutual

theorem rawSecOf_lastOk : ∀ (path : List String) (g : String) (v : SVal),
    pathOk path = true → bareKey g = true → goodSub v = true →
    lastOkL (rawSecOf path g v)
  | _, _, .str _, _, _, _ => by simp only [rawSecOf]; exact lastOkL_nil
  | path, g, .table gkvs, hp, hg, hv => by
    simp only [goodSub, Bool.and_eq_true] at hv
    obtain ⟨⟨⟨hhs, _⟩, _⟩, hge⟩ := hv
    have hpg : pathOk (path ++ [g]) = true := pathOk_append path g hp hg
    simp only [rawSecOf]
    have hsc : lastOkL (scalarLines gkvs ++ rawGrand (path ++ [g]) gkvs) :=
      lastOkL_append _ _ (lastOkL_of_all _ (scalarLines_wf gkvs hge))
        (rawGrand_lastOk (path ++ [g]) gkvs hpg hge)
    have hne1 : scalarLines gkvs ++ rawGrand (path ++ [g]) gkvs ≠ [] := by
      have := scalarLines_ne_nil gkvs hhs
      cases hsl : scalarLines gkvs with
      | nil => exact absurd hsl this
      | cons a as => simp [hsl]
    show lastOkL ([] :: headerLine (dotted (path ++ [g]))
        :: (scalarLines gkvs ++ rawGrand (path ++ [g]) gkvs))
    exact lastOkL_cons_of_ne _ _ (by simp)
      (lastOkL_cons_of_ne _ _ hne1 hsc)

theorem rawSections_lastOk : ∀ (path : List String) (kvs : SDoc),
    pathOk path = true → goodEntries kvs = true →
    lastOkL (rawSections path kvs)
  | _, [], _, _ => by simp only [rawSections]; exact lastOkL_nil
  | path, (g, v) :: rest, hp, hg => by
    simp only [goodEntries, Bool.and_eq_true] at hg
    obtain ⟨⟨hk, hv⟩, hrest⟩ := hg
    simp only [rawSections]
    exact lastOkL_append _ _ (rawSecOf_lastOk path g v hp hk hv)
      (rawSections_lastOk path rest hp hrest)

theorem rawGrandOf_lastOk : ∀ (path : List String) (h : String) (v : SVal),
    pathOk path = true → bareKey h = true → goodSub v = true →
    lastOkL (rawGrandOf path h v)
  | _, _, .str _, _, _, _ => by simp only [rawGrandOf]; exact lastOkL_nil
  | path, h, .table hkvs, hp, hh, hv => by
    simp only [goodSub, Bool.and_eq_true] at hv
    obtain ⟨⟨⟨hhs, _⟩, _⟩, hge⟩ := hv
    have hph : pathOk (path ++ [h]) = true := pathOk_append path h hp hh
    simp only [rawGrandOf]
    have hsc : lastOkL (scalarLines hkvs ++ rawSections (path ++ [h]) hkvs) :=
      lastOkL_append _ _ (lastOkL_of_all _ (scalarLines_wf hkvs hge))
        (rawSections_lastOk (path ++ [h]) hkvs hph hge)
    have hne1 : scalarLines hkvs ++ rawSections (path ++ [h]) hkvs ≠ [] := by
      have := scalarLines_ne_nil hkvs hhs
      cases hsl : scalarLines hkvs with
      | nil => exact absurd hsl this
      | cons a as => simp [hsl]
    exact lastOkL_cons_of_ne _ _ hne1 hsc

theorem rawGrand_lastOk : ∀ (path : List String) (kvs : SDoc),
    pathOk path = true → goodEntries kvs = true →
    lastOkL (rawGrand path kvs)
  | _, [], _, _ => by simp only [rawGrand]; exact lastOkL_nil
  | path, (g, v) :: rest, hp, hg => by
    simp only [goodEntries, Bool.and_eq_true] at hg
    obtain ⟨⟨hk, hv⟩, hrest⟩ := hg
    simp only [rawGrand]
    exact lastOkL_append _ _ (rawGrandOf_lastOk path g v hp hk hv)
      (rawGrand_lastOk path rest hp hrest)

end

/-- The lines a recursive `dumps` call prints for a table at a path. -/
def callLines (cpath : List String) (kvs : SDoc) : List (List Char) :=
  headerLine (dotted cpath) :: scalarLines kvs ++ rawSections cpath kvs

theorem rawGrandOf_table (q : List String) (h : String) (hkvs : SDoc) :
    rawGrandOf q h (.table hkvs) = callLines (q ++ [h]) hkvs := rfl

theorem rawSecOf_table (q : List String) (g : String) (gkvs : SDoc) :
    rawSecOf q g (.table gkvs)
      = ([] :: headerLine (dotted (q ++ [g])) :: scalarLines gkvs)
          ++ rawGrand (q ++ [g]) gkvs := rfl

theorem renderScalars_ne (kvs : SDoc) (h : hasScalar kvs = true) :
    renderScalars kvs ≠ "" := by
  apply ne_empty_of_data
  rw [renderScalars_data]
  exact unlinesC_ne_nil _ (scalarLines_ne_nil kvs h)

theorem str_ne_of_acc (r : String) (acc : List (List Char))
    (hr : r.data = unlinesC acc) (ha : acc ≠ []) : r ≠ "" := by
  apply ne_empty_of_data
  rw [hr]
  exact unlinesC_ne_nil acc ha

theorem endsTwoNl_of_acc (r : String) (acc : List (List Char))
    (hr : r.data = unlinesC acc) (ha : acc ≠ []) (hlast : lastOkL acc) :
    endsTwoNl r = false := by
  cases hgl : acc.getLast? with
  | none =>
    cases acc with
    | nil => exact absurd rfl ha
    | cons x xs =>
      rw [List.getLast?_eq_none_iff] at hgl
      cases hgl
  | some l =>
    obtain ⟨hne, hnl⟩ := hlast l hgl
    exact endsTwoNl_of_lines r acc l hr hgl hne hnl

theorem header_block_data (x : String) (p : String) (sAdd : String)
    (accx : List (List Char)) (SL : List (List Char))
    (hx : x.data = unlinesC accx) (hs : sAdd.data = unlinesC SL) :
    (x ++ "[" ++ p ++ "]\n" ++ sAdd).data
      = unlinesC (accx ++ (headerLine p :: SL)) := by
  simp only [String.data_append, hx, hs, unlinesC_append, unlinesC, headerLine]
  show unlinesC accx ++ ['['] ++ p.data ++ [']', '\n'] ++ unlinesC SL
    = unlinesC accx ++ ('[' :: (p.data ++ [']']) ++ '\n' :: unlinesC SL)
  simp

theorem newline_block_data (r : String) (acc : List (List Char))
    (hr : r.data = unlinesC acc) :
    (r ++ "\n").data = unlinesC (acc ++ [[]]) := by
  simp only [String.data_append, hr, unlinesC_append, unlinesC]
  rfl

/-- Processing the sub-tables of one section: each is printed by a
recursive `dumps` call appended to the accumulator. -/
theorem grand_fold_lines (fuel : Nat)
    (ih : ∀ (kvs2 : SDoc) (cpath2 : List String), goodSub (.table kvs2) = true →
      pathOk cpath2 = true → cpath2 ≠ [] → sSizeL kvs2 ≤ fuel →
      (dumpsVF fuel kvs2 (dotted cpath2)).data = unlinesC (callLines cpath2 kvs2)) :
    ∀ (gkvs : SDoc) (q : List String) (pstr : String) (r1 : String)
      (acc1 : List (List Char)),
    goodEntries gkvs = true → pathOk q = true → q ≠ [] → pstr = dotted q →
    (∀ h2 hkvs, (h2, hkvs) ∈ sectionsOf gkvs → sSizeL hkvs ≤ fuel) →
    r1.data = unlinesC acc1 →
    ((sectionsOf gkvs).foldl (fun r2 g =>
        r2 ++ dumpsVF fuel g.2 (joinPre pstr g.1)) r1).data
      = unlinesC (acc1 ++ rawGrand q gkvs)
  | [], q, pstr, r1, acc1, _, _, _, _, _, hr => by
    simp only [sectionsOf, List.foldl_nil, rawGrand, List.append_nil]
    exact hr
  | (h, SVal.str s) :: rest, q, pstr, r1, acc1, hg, hq, hqne, hps, hsz, hr => by
    simp only [goodEntries, Bool.and_eq_true] at hg
    simp only [sectionsOf, rawGrand, rawGrandOf, List.nil_append]
    exact grand_fold_lines fuel ih rest q pstr r1 acc1 hg.2 hq hqne hps
      (fun h2 hkvs hm => hsz h2 hkvs (by simpa [sectionsOf] using hm)) hr
  | (h, SVal.table hkvs) :: rest, q, pstr, r1, acc1, hg, hq, hqne, hps, hsz, hr => by
    simp only [goodEntries, Bool.and_eq_true] at hg
    obtain ⟨⟨hk, hv⟩, hrest⟩ := hg
    simp only [sectionsOf, List.foldl_cons, rawGrand]
    have hjp : joinPre pstr h = dotted (q ++ [h]) := by
      rw [hps]; exact joinPre_dotted q h hq
    have hcall : (dumpsVF fuel hkvs (joinPre pstr h)).data
        = unlinesC (callLines (q ++ [h]) hkvs) := by
      rw [hjp]
      exact ih hkvs (q ++ [h]) hv (pathOk_append q h hq hk) (by simp)
        (hsz h hkvs (by simp [sectionsOf]))
    have hr2 : (r1 ++ dumpsVF fuel hkvs (joinPre pstr h)).data
        = unlinesC (acc1 ++ callLines (q ++ [h]) hkvs) := by
      simp only [String.data_append, hr, hcall, unlinesC_append]
    have := grand_fold_lines fuel ih rest q pstr
      (r1 ++ dumpsVF fuel hkvs (joinPre pstr h))
      (acc1 ++ callLines (q ++ [h]) hkvs) hrest hq hqne hps
      (fun h2 hkvs2 hm => hsz h2 hkvs2 (by simp [sectionsOf]; exact Or.inr hm)) hr2
    rw [this, rawGrandOf_table]
    simp [List.append_assoc]

/-- Processing the sections of a `dumps` call: each section contributes a
blank separator, its header and scalar body, then its sub-tables. -/
theorem secs_fold_lines (fuel : Nat)
    (ih : ∀ (kvs2 : SDoc) (cpath2 : List String), goodSub (.table kvs2) = true →
      pathOk cpath2 = true → cpath2 ≠ [] → sSizeL kvs2 ≤ fuel →
      (dumpsVF fuel kvs2 (dotted cpath2)).data = unlinesC (callLines cpath2 kvs2)) :
    ∀ (kvs : SDoc) (cpath : List String) (pstr : String) (r : String)
      (acc : List (List Char)),
    goodEntries kvs = true → pathOk cpath = true → pstr = dotted cpath →
    (∀ g gkvs, (g, gkvs) ∈ sectionsOf kvs → sSizeL gkvs ≤ fuel) →
    r.data = unlinesC acc → acc ≠ [] → lastOkL acc →
    ((sectionsOf kvs).foldl (fun r sec =>
        let sAdd := renderScalars sec.2
        let r1 := if sAdd ≠ "" ∨ (sectionsOf sec.2).isEmpty then
            (if r ≠ "" ∧ ¬ endsTwoNl r then r ++ "\n" else r)
              ++ "[" ++ joinPre pstr sec.1 ++ "]\n" ++ sAdd
          else r
        (sectionsOf sec.2).foldl (fun r2 g =>
          r2 ++ dumpsVF fuel g.2 (joinPre (joinPre pstr sec.1) g.1)) r1) r).data
      = unlinesC (acc ++ rawSections cpath kvs)
  | [], cpath, pstr, r, acc, _, _, _, _, hr, _, _ => by
    simp only [sectionsOf, List.foldl_nil, rawSections, List.append_nil]
    exact hr
  | (g, SVal.str s) :: rest, cpath, pstr, r, acc, hg, hcp, hps, hsz, hr, hane, halast => by
    simp only [goodEntries, Bool.and_eq_true] at hg
    simp only [sectionsOf, rawSections, rawSecOf, List.nil_append]
    exact secs_fold_lines fuel ih rest cpath pstr r acc hg.2 hcp hps
      (fun g2 gkvs hm => hsz g2 gkvs (by simpa [sectionsOf] using hm)) hr hane halast
  | (g, SVal.table gkvs) :: rest, cpath, pstr, r, acc, hg, hcp, hps, hsz, hr, hane, halast => by
    simp only [goodEntries, Bool.and_eq_true] at hg
    obtain ⟨⟨hk, hv⟩, hrest⟩ := hg
    have hvsplit := hv
    simp only [goodSub, Bool.and_eq_true] at hvsplit
    obtain ⟨⟨⟨hhs, hnd⟩, hsf⟩, hge⟩ := hvsplit
    have hjp : joinPre pstr g = dotted (cpath ++ [g]) := by
      rw [hps]; exact joinPre_dotted cpath g hcp
    have hsne : renderScalars gkvs ≠ "" := renderScalars_ne gkvs hhs
    have hrne : r ≠ "" := str_ne_of_acc r acc hr hane
    have hets : endsTwoNl r = false := endsTwoNl_of_acc r acc hr hane halast
    simp only [sectionsOf, List.foldl_cons]
    rw [if_pos (Or.inl hsne), if_pos ⟨hrne, by rw [hets]; exact Bool.false_ne_true⟩]
    have hr1 : ((r ++ "\n") ++ "[" ++ joinPre pstr g ++ "]\n" ++ renderScalars gkvs).data
        = unlinesC ((acc ++ [[]])
            ++ (headerLine (dotted (cpath ++ [g])) :: scalarLines gkvs)) := by
      rw [← hjp]
      exact header_block_data (r ++ "\n") (joinPre pstr g) (renderScalars gkvs)
        (acc ++ [[]]) (scalarLines gkvs)
        (newline_block_data r acc hr) (renderScalars_data gkvs)
    have hgrand := grand_fold_lines fuel ih gkvs (cpath ++ [g]) (joinPre pstr g)
      ((r ++ "\n") ++ "[" ++ joinPre pstr g ++ "]\n" ++ renderScalars gkvs)
      ((acc ++ [[]]) ++ (headerLine (dotted (cpath ++ [g])) :: scalarLines gkvs))
      hge (pathOk_append cpath g hcp hk) (by simp) hjp
      (fun h2 hkvs hm => by
        have h1 := sectionsOf_size gkvs h2 hkvs hm
        have h2b := hsz g gkvs (by simp [sectionsOf])
        omega)
      hr1
    have hihrest := secs_fold_lines fuel ih rest cpath pstr
      ((sectionsOf gkvs).foldl (fun r2 g2 =>
        r2 ++ dumpsVF fuel g2.2 (joinPre (joinPre pstr g) g2.1))
        ((r ++ "\n") ++ "[" ++ joinPre pstr g ++ "]\n" ++ renderScalars gkvs))
      (acc ++ rawSecOf cpath g (.table gkvs))
      hrest hcp hps
      (fun g2 gkvs2 hm => hsz g2 gkvs2 (by simp [sectionsOf]; exact Or.inr hm))
      (by
        rw [hgrand, rawSecOf_table]
        simp [List.append_assoc])
      (by
        intro hcon
        exact hane (List.append_eq_nil.mp hcon).1)
      (lastOkL_append acc _ halast (rawSecOf_lastOk cpath g (.table gkvs) hcp hk hv))
    rw [hihrest]
    simp only [rawSections, List.append_assoc]

/-- A recursive `dumps` call on a well-formed table prints exactly its
header, scalar body, and section blocks. -/
theorem dumpsVF_lines : ∀ (fuel : Nat) (kvs : SDoc) (cpath : List String),
    goodSub (.table kvs) = true → pathOk cpath = true → cpath ≠ [] →
    sSizeL kvs ≤ fuel →
    (dumpsVF fuel kvs (dotted cpath)).data = unlinesC (callLines cpath kvs) := by
  intro fuel
  induction fuel with
  | zero =>
    intro kvs cpath _ _ _ hsz
    have := sSizeL_pos kvs
    omega
  | succ f ihf =>
    intro kvs cpath hv hcp hne hsz
    have hvsplit := hv
    simp only [goodSub, Bool.and_eq_true] at hvsplit
    obtain ⟨⟨⟨hhs, hnd⟩, hsf⟩, hge⟩ := hvsplit
    have hpre_ne : dotted cpath ≠ "" := dotted_ne_empty cpath hcp hne
    have haddto : renderScalars kvs ≠ "" := renderScalars_ne kvs hhs
    simp only [dumpsVF]
    rw [if_pos ⟨hpre_ne, haddto⟩]
    have hr0 : ("[" ++ dotted cpath ++ "]\n" ++ renderScalars kvs).data
        = unlinesC (headerLine (dotted cpath) :: scalarLines kvs) := by
      simp only [String.data_append, renderScalars_data, unlinesC, headerLine]
      show ['['] ++ (dotted cpath).data ++ [']', '\n'] ++ unlinesC (scalarLines kvs)
        = '[' :: ((dotted cpath).data ++ [']']) ++ '\n' :: unlinesC (scalarLines kvs)
      simp
    have hsecs := secs_fold_lines f ihf kvs cpath (dotted cpath)
      ("[" ++ dotted cpath ++ "]\n" ++ renderScalars kvs)
      (headerLine (dotted cpath) :: scalarLines kvs)
      hge hcp rfl
      (fun g gkvs hm => by
        have := sectionsOf_size kvs g gkvs hm
        omega)
      hr0 (by simp)
      (lastOkL_cons_of_ne _ _ (scalarLines_ne_nil kvs hhs)
        (lastOkL_of_all _ (scalarLines_wf kvs hge)))
    rw [hsecs]
    simp [callLines]

/-- A table body with no scalar entry renders an empty scalar body. -/
theorem renderScalars_empty : ∀ kvs : SDoc, hasScalar kvs = false → renderScalars kvs = ""
  | [], _ => rfl
  | (k, SVal.str s) :: rest, h => by simp [hasScalar] at h
  | (k, SVal.table akvs) :: rest, h => by
    simp only [renderScalars]
    exact renderScalars_empty rest (by simpa [hasScalar] using h)

/-- The lines the root `dumps` call prints: the root scalar body followed by
its section blocks; when the root has no scalars the very first blank
separator is not printed (the accumulator starts empty). -/
def rootLines (D : SDoc) : List (List Char) :=
  if hasScalar D then scalarLines D ++ rawSections [] D
  else (rawSections [] D).tail

/-- The full `dumps` output is exactly the root line structure, each line
terminated by a newline. -/
theorem dumps_data : ∀ D : SDoc, goodRoot D = true →
    (dumps D).data = unlinesC (rootLines D) := by
  intro D hg
  have hgsplit := hg
  simp only [goodRoot, Bool.and_eq_true] at hgsplit
  obtain ⟨⟨hnd, hsf⟩, hge⟩ := hgsplit
  obtain ⟨m, hm⟩ : ∃ m, sSizeL D = m + 1 :=
    ⟨sSizeL D - 1, by have := sSizeL_pos D; omega⟩
  show (dumpsVF (sSizeL D) D "").data = unlinesC (rootLines D)
  rw [hm]
  simp only [dumpsVF]
  rw [if_neg (fun hcon => hcon.1 rfl)]
  cases hhs : hasScalar D with
  | true =>
    have hsecs := secs_fold_lines m (dumpsVF_lines m) D [] ""
      (renderScalars D) (scalarLines D) hge rfl rfl
      (fun g gkvs hmem => by
        have := sectionsOf_size D g gkvs hmem
        omega)
      (renderScalars_data D) (scalarLines_ne_nil D hhs)
      (lastOkL_of_all _ (scalarLines_wf D hge))
    rw [hsecs]
    have hroot : rootLines D = scalarLines D ++ rawSections [] D := by
      simp [rootLines, hhs]
    rw [hroot]
  | false =>
    have hrsD : renderScalars D = "" := renderScalars_empty D hhs
    rw [hrsD]
    cases D with
    | nil => rfl
    | cons hd tl =>
      obtain ⟨k, v⟩ := hd
      cases v with
      | str s => simp [hasScalar] at hhs
      | table gkvs =>
        simp only [goodEntries, Bool.and_eq_true] at hge
        obtain ⟨⟨hk, hv⟩, hrest⟩ := hge
        have hv2 := hv
        simp only [goodSub, Bool.and_eq_true] at hv2
        obtain ⟨⟨⟨hghs, hgnd⟩, hgsf⟩, hgge⟩ := hv2
        simp only [sectionsOf, List.foldl_cons]
        have hsne : renderScalars gkvs ≠ "" := renderScalars_ne gkvs hghs
        rw [if_pos (Or.inl hsne), if_neg (fun hcon => hcon.1 rfl)]
        have hjp : joinPre "" k = dotted ([] ++ [k]) := joinPre_dotted [] k rfl
        have hpk1 : pathOk ([] ++ [k]) = true := pathOk_append [] k rfl hk
        have hr1 : ("" ++ "[" ++ joinPre "" k ++ "]\n" ++ renderScalars gkvs).data
            = unlinesC (headerLine (dotted ([] ++ [k])) :: scalarLines gkvs) := by
          rw [← hjp]
          exact header_block_data "" (joinPre "" k) (renderScalars gkvs)
            [] (scalarLines gkvs) rfl (renderScalars_data gkvs)
        have hszg : ∀ h2 hkvs, (h2, hkvs) ∈ sectionsOf gkvs → sSizeL hkvs ≤ m := by
          intro h2 hkvs hmem
          have h1 := sectionsOf_size gkvs h2 hkvs hmem
          have hD : sSizeL ((k, SVal.table gkvs) :: tl)
              = 1 + (1 + sSizeL gkvs) + sSizeL tl := rfl
          have h3 := sSizeL_pos tl
          omega
        have hgrand := grand_fold_lines m (dumpsVF_lines m) gkvs ([] ++ [k])
          (joinPre "" k)
          ("" ++ "[" ++ joinPre "" k ++ "]\n" ++ renderScalars gkvs)
          (headerLine (dotted ([] ++ [k])) :: scalarLines gkvs)
          hgge hpk1 (by simp) hjp hszg hr1
        have hszt : ∀ g2 gkvs2, (g2, gkvs2) ∈ sectionsOf tl → sSizeL gkvs2 ≤ m := by
          intro g2 gkvs2 hmem
          have h1 := sectionsOf_size tl g2 gkvs2 hmem
          have hD : sSizeL ((k, SVal.table gkvs) :: tl)
              = 1 + (1 + sSizeL gkvs) + sSizeL tl := rfl
          omega
        have hlast2 : lastOkL ((headerLine (dotted ([] ++ [k])) :: scalarLines gkvs)
            ++ rawGrand ([] ++ [k]) gkvs) :=
          lastOkL_append _ _
            (lastOkL_cons_of_ne _ _ (scalarLines_ne_nil gkvs hghs)
              (lastOkL_of_all _ (scalarLines_wf gkvs hgge)))
            (rawGrand_lastOk ([] ++ [k]) gkvs hpk1 hgge)
        have hsecs := secs_fold_lines m (dumpsVF_lines m) tl [] ""
          ((sectionsOf gkvs).foldl (fun r2 g =>
              r2 ++ dumpsVF m g.2 (joinPre (joinPre "" k) g.1))
            ("" ++ "[" ++ joinPre "" k ++ "]\n" ++ renderScalars gkvs))
          ((headerLine (dotted ([] ++ [k])) :: scalarLines gkvs)
            ++ rawGrand ([] ++ [k]) gkvs)
          hrest rfl rfl hszt hgrand (by simp) hlast2
        rw [hsecs]
        have hroot : rootLines ((k, SVal.table gkvs) :: tl)
            = ((headerLine (dotted ([] ++ [k])) :: scalarLines gkvs)
                ++ rawGrand ([] ++ [k]) gkvs) ++ rawSections [] tl := by
          simp [rootLines, hhs, rawSections, rawSecOf]
        rw [hroot]

/-! #### Parser-side document algebra -/

/-- Read the table body at a path. -/
def getTbl : SDoc → List String → Option SDoc
  | t, [] => some t
  | t, k :: ps =>
    match lookupS t k with
    | some (SVal.table sub) => getTbl sub ps
    | _ => none

/-- Replace the table body at a path (identity when the path is broken). -/
def setTbl : SDoc → List String → SDoc → SDoc
  | _, [], nb => nb
  | t, k :: ps, nb =>
    match lookupS t k with
    | some (SVal.table sub) => replaceS t k (.table (setTbl sub ps nb))
    | _ => t

/-- The string entries of a table body, in order. -/
def scalarEntries : SDoc → SDoc
  | [] => []
  | (k, SVal.str s) :: rest => (k, SVal.str s) :: scalarEntries rest
  | (_, SVal.table _) :: rest => scalarEntries rest

/-- The sub-table entries of a table body, in order. -/
def tableEntries : SDoc → SDoc
  | [] => []
  | (_, SVal.str _) :: rest => tableEntries rest
  | (k, SVal.table a) :: rest => (k, SVal.table a) :: tableEntries rest

/-- What one section block contributes to its parent body. -/
def secEntry (g : String) : SVal → SDoc
  | .str _ => []
  | .table gkvs => [(g, SVal.table gkvs)]

theorem keyAbsent_cons (k' : String) (v : SVal) (g : String) (rest : SDoc) :
    keyAbsent g ((k', v) :: rest) = true ↔ k' ≠ g ∧ keyAbsent g rest = true := by
  simp [keyAbsent]

theorem lookupS_absent : ∀ (t : SDoc) (g : String), keyAbsent g t = true →
    lookupS t g = none
  | [], _, _ => rfl
  | (k, v) :: rest, g, h => by
    obtain ⟨hne, hrest⟩ := (keyAbsent_cons k v g rest).mp h
    simp only [lookupS]
    rw [if_neg hne]
    exact lookupS_absent rest g hrest

theorem lookupS_append_absent : ∀ (B C : SDoc) (g : String),
    keyAbsent g B = true → lookupS (B ++ C) g = lookupS C g
  | [], _, _, _ => rfl
  | (k, v) :: rest, C, g, h => by
    obtain ⟨hne, hrest⟩ := (keyAbsent_cons k v g rest).mp h
    simp only [List.cons_append, lookupS]
    rw [if_neg hne]
    exact lookupS_append_absent rest C g hrest

theorem replaceS_append_absent : ∀ (B C : SDoc) (g : String) (nv : SVal),
    keyAbsent g B = true → replaceS (B ++ C) g nv = B ++ replaceS C g nv
  | [], _, _, _, _ => rfl
  | (k, v) :: rest, C, g, nv, h => by
    obtain ⟨hne, hrest⟩ := (keyAbsent_cons k v g rest).mp h
    simp only [List.cons_append, replaceS]
    rw [if_neg hne]
    exact congrArg (List.cons (k, v)) (replaceS_append_absent rest C g nv hrest)

theorem replaceS_self : ∀ (t : SDoc) (k : String) (v : SVal),
    lookupS t k = some v → replaceS t k v = t
  | [], _, _, h => by cases h
  | (k', v') :: rest, k, v, h => by
    simp only [lookupS] at h
    simp only [replaceS]
    by_cases he : k' = k
    · rw [if_pos he] at h ⊢
      injection h with h1
      rw [h1]
    · rw [if_neg he] at h ⊢
      rw [replaceS_self rest k v h]

theorem lookupS_replaceS_self : ∀ (t : SDoc) (k : String) (nv v : SVal),
    lookupS t k = some v → lookupS (replaceS t k nv) k = some nv
  | [], _, _, _, h => by cases h
  | (k', v') :: rest, k, nv, v, h => by
    simp only [lookupS] at h
    simp only [replaceS]
    by_cases he : k' = k
    · rw [if_pos he]
      simp only [lookupS]
      rw [if_pos he]
    · rw [if_neg he] at h
      rw [if_neg he]
      simp only [lookupS]
      rw [if_neg he]
      exact lookupS_replaceS_self rest k nv v h

theorem replaceS_replaceS : ∀ (t : SDoc) (k : String) (x y : SVal),
    replaceS (replaceS t k x) k y = replaceS t k y
  | [], _, _, _ => rfl
  | (k', v') :: rest, k, x, y => by
    simp only [replaceS]
    by_cases he : k' = k
    · simp only [replaceS, if_pos he]
    · simp only [replaceS, if_neg he]
      rw [replaceS_replaceS rest k x y]

theorem getTbl_setTbl_self : ∀ (q : List String) (R B nb : SDoc),
    getTbl R q = some B → getTbl (setTbl R q nb) q = some nb
  | [], _, _, _, _ => rfl
  | k :: ps, R, B, nb, h => by
    simp only [getTbl] at h
    cases hlk : lookupS R k with
    | none => rw [hlk] at h; cases h
    | some v =>
      cases v with
      | str s => rw [hlk] at h; cases h
      | table sub =>
        rw [hlk] at h
        simp only [setTbl, hlk, getTbl,
          lookupS_replaceS_self R k (SVal.table (setTbl sub ps nb)) (SVal.table sub) hlk]
        exact getTbl_setTbl_self ps sub B nb h

theorem setTbl_setTbl : ∀ (q : List String) (R B nb nb' : SDoc),
    getTbl R q = some B → setTbl (setTbl R q nb) q nb' = setTbl R q nb'
  | [], _, _, _, _, _ => rfl
  | k :: ps, R, B, nb, nb', h => by
    simp only [getTbl] at h
    cases hlk : lookupS R k with
    | none => rw [hlk] at h; cases h
    | some v =>
      cases v with
      | str s => rw [hlk] at h; cases h
      | table sub =>
        rw [hlk] at h
        simp only [setTbl, hlk,
          lookupS_replaceS_self R k (SVal.table (setTbl sub ps nb)) (SVal.table sub) hlk,
          replaceS_replaceS]
        rw [setTbl_setTbl ps sub B nb nb' h]

theorem setTbl_same : ∀ (q : List String) (R B : SDoc),
    getTbl R q = some B → setTbl R q B = R
  | [], R, B, h => by
    simp only [getTbl] at h
    injection h with h1
    exact h1.symm
  | k :: ps, R, B, h => by
    simp only [getTbl] at h
    cases hlk : lookupS R k with
    | none => rw [hlk] at h; cases h
    | some v =>
      cases v with
      | str s => rw [hlk] at h; cases h
      | table sub =>
        rw [hlk] at h
        simp only [setTbl, hlk]
        rw [setTbl_same ps sub B h]
        exact replaceS_self R k (SVal.table sub) hlk

theorem ensurePath_set : ∀ (q : List String) (R B : SDoc) (g : String),
    getTbl R q = some B → keyAbsent g B = true →
    ensurePath R (q ++ [g]) = setTbl R q (B ++ [(g, SVal.table [])])
  | [], R, B, g, h, ha => by
    simp only [getTbl] at h
    injection h with h1
    subst h1
    simp only [List.nil_append, ensurePath, setTbl]
    rw [lookupS_absent R g ha]
  | k :: ps, R, B, g, h, ha => by
    simp only [getTbl] at h
    cases hlk : lookupS R k with
    | none => rw [hlk] at h; cases h
    | some v =>
      cases v with
      | str s => rw [hlk] at h; cases h
      | table sub =>
        rw [hlk] at h
        simp only [List.cons_append, ensurePath, setTbl, hlk]
        exact congrArg (fun z => replaceS R k (SVal.table z))
          (ensurePath_set ps sub B g h ha)

theorem insertKV_set : ∀ (q : List String) (R B : SDoc) (k : String) (v : SVal),
    getTbl R q = some B → insertKV R q k v = setTbl R q (B ++ [(k, v)])
  | [], R, B, k, v, h => by
    simp only [getTbl] at h
    injection h with h1
    subst h1
    rfl
  | c :: cs, R, B, k, v, h => by
    simp only [getTbl] at h
    cases hlk : lookupS R c with
    | none => rw [hlk] at h; cases h
    | some w =>
      cases w with
      | str s => rw [hlk] at h; cases h
      | table sub =>
        rw [hlk] at h
        simp only [insertKV, setTbl, hlk]
        rw [insertKV_set cs sub B k v h]

theorem getTbl_append_one : ∀ (q : List String) (R B : SDoc) (g : String),
    getTbl R q = some B →
    getTbl R (q ++ [g]) = (match lookupS B g with
      | some (SVal.table s) => some s
      | _ => none)
  | [], R, B, g, h => by
    simp only [getTbl] at h
    injection h with h1
    subst h1
    show getTbl R [g] = _
    simp only [getTbl]
  | c :: cs, R, B, g, h => by
    simp only [getTbl] at h
    cases hlk : lookupS R c with
    | none => rw [hlk] at h; cases h
    | some w =>
      cases w with
      | str s => rw [hlk] at h; cases h
      | table sub =>
        rw [hlk] at h
        show getTbl R (c :: (cs ++ [g])) = _
        simp only [getTbl, hlk]
        exact getTbl_append_one cs sub B g h

theorem getTbl_snoc (q : List String) (R C X : SDoc) (g : String)
    (h : getTbl R q = some C) (ha : keyAbsent g C = true) :
    getTbl (setTbl R q (C ++ [(g, SVal.table X)])) (q ++ [g]) = some X := by
  have h1 : getTbl (setTbl R q (C ++ [(g, SVal.table X)])) q
      = some (C ++ [(g, SVal.table X)]) := getTbl_setTbl_self q R C _ h
  rw [getTbl_append_one q (setTbl R q (C ++ [(g, SVal.table X)]))
    (C ++ [(g, SVal.table X)]) g h1]
  rw [lookupS_append_absent C [(g, SVal.table X)] g ha]
  simp [lookupS]

theorem setTbl_snoc : ∀ (q : List String) (R C X Y : SDoc) (g : String),
    getTbl R q = some C → keyAbsent g C = true →
    setTbl (setTbl R q (C ++ [(g, SVal.table X)])) (q ++ [g]) Y
      = setTbl R q (C ++ [(g, SVal.table Y)])
  | [], R, C, X, Y, g, h, ha => by
    simp only [getTbl] at h
    injection h with h1
    subst h1
    have e1 : lookupS (R ++ [(g, SVal.table X)]) g = some (SVal.table X) := by
      rw [lookupS_append_absent R [(g, SVal.table X)] g ha]
      simp [lookupS]
    have e2 : replaceS (R ++ [(g, SVal.table X)]) g (SVal.table Y)
        = R ++ [(g, SVal.table Y)] := by
      rw [replaceS_append_absent R [(g, SVal.table X)] g (SVal.table Y) ha]
      simp [replaceS]
    show setTbl (R ++ [(g, SVal.table X)]) ([] ++ [g]) Y = R ++ [(g, SVal.table Y)]
    simp only [List.nil_append, setTbl, e1]
    exact e2
  | k :: ps, R, C, X, Y, g, h, ha => by
    simp only [getTbl] at h
    cases hlk : lookupS R k with
    | none => rw [hlk] at h; cases h
    | some v =>
      cases v with
      | str s => rw [hlk] at h; cases h
      | table sub =>
        rw [hlk] at h
        simp only [List.cons_append, setTbl, hlk,
          lookupS_replaceS_self R k
            (SVal.table (setTbl sub ps (C ++ [(g, SVal.table X)]))) (SVal.table sub) hlk,
          replaceS_replaceS]
        exact congrArg (fun z => replaceS R k (SVal.table z))
          (setTbl_snoc ps sub C X Y g h ha)

theorem scalarEntries_allTables : ∀ t : SDoc, allTables t = true → scalarEntries t = []
  | [], _ => rfl
  | (k, SVal.str s) :: rest, h => by simp [allTables] at h
  | (k, SVal.table a) :: rest, h => by
    simp only [scalarEntries]
    exact scalarEntries_allTables rest (by simpa [allTables] using h)

theorem tableEntries_allTables : ∀ t : SDoc, allTables t = true → tableEntries t = t
  | [], _ => rfl
  | (k, SVal.str s) :: rest, h => by simp [allTables] at h
  | (k, SVal.table a) :: rest, h => by
    simp only [tableEntries]
    rw [tableEntries_allTables rest (by simpa [allTables] using h)]

/-- When scalars precede tables, a body is its scalar entries followed by
its table entries. -/
theorem scalarsFirst_decomp : ∀ kvs : SDoc, scalarsFirst kvs = true →
    scalarEntries kvs ++ tableEntries kvs = kvs
  | [], _ => rfl
  | (k, SVal.str s) :: rest, h => by
    simp only [scalarEntries, tableEntries, List.cons_append]
    rw [scalarsFirst_decomp rest (by simpa [scalarsFirst] using h)]
  | (k, SVal.table a) :: rest, h => by
    have hat : allTables rest = true := by simpa [scalarsFirst] using h
    simp only [scalarEntries, tableEntries]
    rw [scalarEntries_allTables rest hat, tableEntries_allTables rest hat]
    rfl

theorem tableEntries_no_scalar : ∀ t : SDoc, hasScalar t = false → tableEntries t = t
  | [], _ => rfl
  | (k, SVal.str s) :: rest, h => by simp [hasScalar] at h
  | (k, SVal.table a) :: rest, h => by
    simp only [tableEntries]
    rw [tableEntries_no_scalar rest (by simpa [hasScalar] using h)]

theorem keyAbsent_mem : ∀ (t : SDoc) (g k : String) (v : SVal),
    keyAbsent g t = true → (k, v) ∈ t → k ≠ g
  | [], _, _, _, _, hm => by cases hm
  | (k', v') :: rest, g, k, v, h, hm => by
    obtain ⟨hne, hrest⟩ := (keyAbsent_cons k' v' g rest).mp h
    rcases List.mem_cons.mp hm with he | hm2
    · have he1 : k = k' := congrArg Prod.fst he
      rw [he1]; exact hne
    · exact keyAbsent_mem rest g k v hrest hm2

theorem keyAbsent_append (a b : SDoc) (g : String)
    (ha : keyAbsent g a = true) (hb : keyAbsent g b = true) :
    keyAbsent g (a ++ b) = true := by
  induction a with
  | nil => exact hb
  | cons hd tl ih =>
    obtain ⟨k', v'⟩ := hd
    obtain ⟨hne, hrest⟩ := (keyAbsent_cons k' v' g tl).mp ha
    exact (keyAbsent_cons k' v' g (tl ++ b)).mpr ⟨hne, ih hrest⟩

theorem keyAbsent_scalarEntries : ∀ (t : SDoc) (g : String),
    keyAbsent g t = true → keyAbsent g (scalarEntries t) = true
  | [], _, _ => rfl
  | (k, SVal.str s) :: rest, g, h => by
    obtain ⟨hne, hrest⟩ := (keyAbsent_cons k (SVal.str s) g rest).mp h
    simp only [scalarEntries]
    exact (keyAbsent_cons k (SVal.str s) g (scalarEntries rest)).mpr
      ⟨hne, keyAbsent_scalarEntries rest g hrest⟩
  | (k, SVal.table a) :: rest, g, h => by
    obtain ⟨_, hrest⟩ := (keyAbsent_cons k (SVal.table a) g rest).mp h
    simp only [scalarEntries]
    exact keyAbsent_scalarEntries rest g hrest

/-- With distinct keys, every section key is absent from the scalar
entries of its own body. -/
theorem sections_absent_scalars : ∀ (kvs : SDoc), nodupKeys kvs = true →
    ∀ g gkvs, (g, gkvs) ∈ sectionsOf kvs → keyAbsent g (scalarEntries kvs) = true
  | [], _, g, gkvs, hm => by simp [sectionsOf] at hm
  | (k, SVal.str s) :: rest, hnd, g, gkvs, hm => by
    simp only [nodupKeys, Bool.and_eq_true] at hnd
    obtain ⟨hka, hndr⟩ := hnd
    simp only [sectionsOf] at hm
    simp only [scalarEntries]
    have hgr : (g, SVal.table gkvs) ∈ rest := sectionsOf_mem rest g gkvs hm
    have hgk : g ≠ k := keyAbsent_mem rest k g (SVal.table gkvs) hka hgr
    exact (keyAbsent_cons k (SVal.str s) g (scalarEntries rest)).mpr
      ⟨fun he => hgk he.symm, sections_absent_scalars rest hndr g gkvs hm⟩
  | (k, SVal.table a) :: rest, hnd, g, gkvs, hm => by
    simp only [nodupKeys, Bool.and_eq_true] at hnd
    obtain ⟨hka, hndr⟩ := hnd
    simp only [sectionsOf, List.mem_cons] at hm
    simp only [scalarEntries]
    rcases hm with he | hm2
    · have hg : g = k := congrArg Prod.fst he
      rw [hg]
      exact keyAbsent_scalarEntries rest k hka
    · exact sections_absent_scalars rest hndr g gkvs hm2

/-! #### Parsing the rendered lines -/

theorem procLines_append : ∀ (a b : List (List Char)) (st : PSt),
    procLines st (a ++ b) = (match procLines st a with
      | some st2 => procLines st2 b
      | none => none)
  | [], b, st => rfl
  | l :: rest, b, st => by
    simp only [List.cons_append, procLines]
    cases procLine st l with
    | none => rfl
    | some st2 => exact procLines_append rest b st2

theorem procLines_blank (st : PSt) (ls : List (List Char)) :
    procLines st ([] :: ls) = procLines st ls := rfl

theorem procLines_header (R : SDoc) (cur p : List String) (ls : List (List Char))
    (hp : pathOk p = true) (hne : p ≠ []) :
    procLines ⟨R, cur⟩ (headerLine (dotted p) :: ls)
      = procLines ⟨ensurePath R p, p⟩ ls := by
  have hne2 : ¬((headerLine (dotted p)).isEmpty = true) := by
    simp [headerLine]
  have h1 : procLine ⟨R, cur⟩ (headerLine (dotted p)) = some ⟨ensurePath R p, p⟩ := by
    unfold procLine
    rw [if_neg hne2, parseHeaderLine_round p hp hne]
  simp only [procLines, h1]

theorem procLines_kv (R : SDoc) (cur : List String) (k s : String)
    (ls : List (List Char)) (hk : bareKey k = true) (hps : plainStr s = true) :
    procLines ⟨R, cur⟩ (kvLine k s :: ls)
      = procLines ⟨insertKV R cur k (SVal.str s), cur⟩ ls := by
  have hne2 : ¬((kvLine k s).isEmpty = true) := by
    rw [List.isEmpty_eq_false.mpr (kvLine_ne_nil k s hk)]
    exact Bool.false_ne_true
  have h1 : procLine ⟨R, cur⟩ (kvLine k s)
      = some ⟨insertKV R cur k (SVal.str s), cur⟩ := by
    unfold procLine
    rw [if_neg hne2, kvLine_not_header k s hk, parseKVLine_round k s hk hps]
  simp only [procLines, h1]

/-- Parsing the scalar lines of a body appends its scalar entries to the
table at the current path. -/
theorem proc_scalarLines : ∀ (kvs : SDoc) (p : List String) (R E : SDoc),
    getTbl R p = some E → goodEntries kvs = true →
    procLines ⟨R, p⟩ (scalarLines kvs)
      = some ⟨setTbl R p (E ++ scalarEntries kvs), p⟩
  | [], p, R, E, h, _ => by
    simp only [scalarLines, procLines, scalarEntries, List.append_nil]
    rw [setTbl_same p R E h]
  | (k, SVal.str s) :: rest, p, R, E, h, hge => by
    simp only [goodEntries, goodSub, Bool.and_eq_true] at hge
    obtain ⟨⟨hk, hps⟩, hrest⟩ := hge
    simp only [scalarLines, scalarEntries]
    rw [procLines_kv R p k s _ hk hps]
    rw [insertKV_set p R E k (SVal.str s) h]
    have h2 : getTbl (setTbl R p (E ++ [(k, SVal.str s)])) p
        = some (E ++ [(k, SVal.str s)]) := getTbl_setTbl_self p R E _ h
    rw [proc_scalarLines rest p _ _ h2 hrest]
    rw [setTbl_setTbl p R E _ _ h]
    simp [List.append_assoc]
  | (k, SVal.table a) :: rest, p, R, E, h, hge => by
    simp only [goodEntries, Bool.and_eq_true] at hge
    simp only [scalarLines, scalarEntries]
    exact proc_scalarLines rest p R E h hge.2

theorem procLines_append_some (a b : List (List Char)) (st st2 : PSt)
    (h : procLines st a = some st2) :
    procLines st (a ++ b) = procLines st2 b := by
  rw [procLines_append a b st, h]

mutual

/-- Parsing one section block appends the section, fully rebuilt, to its
parent body. -/
theorem proc_rawSecOf : ∀ (v : SVal) (p : List String) (g : String) (R C : SDoc)
    (cur : List String), getTbl R p = some C → pathOk p = true →
    bareKey g = true → goodSub v = true → keyAbsent g C = true →
    ∃ c, procLines ⟨R, cur⟩ (rawSecOf p g v)
      = some ⟨setTbl R p (C ++ secEntry g v), c⟩
  | .str s, p, g, R, C, cur, h, _, _, _, _ => by
    refine ⟨cur, ?_⟩
    simp only [rawSecOf, procLines, secEntry, List.append_nil]
    rw [setTbl_same p R C h]
  | .table gkvs, p, g, R, C, cur, h, hp, hg, hv, ha => by
    simp only [goodSub, Bool.and_eq_true] at hv
    obtain ⟨⟨⟨hhs, hnd⟩, hsf⟩, hge⟩ := hv
    have hpg : pathOk (p ++ [g]) = true := pathOk_append p g hp hg
    have hA : procLines ⟨R, cur⟩
        ([] :: headerLine (dotted (p ++ [g])) :: scalarLines gkvs)
        = some ⟨setTbl R p (C ++ [(g, SVal.table (scalarEntries gkvs))]), p ++ [g]⟩ := by
      rw [procLines_blank, procLines_header R cur (p ++ [g]) _ hpg (by simp)]
      rw [ensurePath_set p R C g h ha]
      rw [proc_scalarLines gkvs (p ++ [g]) _ [] (getTbl_snoc p R C [] g h ha) hge]
      simp only [List.nil_append]
      rw [setTbl_snoc p R C [] (scalarEntries gkvs) g h ha]
    simp only [rawSecOf]
    obtain ⟨c, hc⟩ := proc_rawGrand gkvs (p ++ [g])
      (setTbl R p (C ++ [(g, SVal.table (scalarEntries gkvs))]))
      (scalarEntries gkvs) (p ++ [g])
      (getTbl_snoc p R C (scalarEntries gkvs) g h ha) hpg hge hnd
      (sections_absent_scalars gkvs hnd)
    refine ⟨c, ?_⟩
    rw [procLines_append_some _ (rawGrand (p ++ [g]) gkvs) ⟨R, cur⟩ _ hA]
    rw [hc, setTbl_snoc p R C (scalarEntries gkvs)
      (scalarEntries gkvs ++ tableEntries gkvs) g h ha]
    rw [scalarsFirst_decomp gkvs hsf]
    rfl

/-- Parsing the section blocks of a body appends its table entries, fully
rebuilt, to the body at the current path. -/
theorem proc_rawSections : ∀ (kvs : SDoc) (p : List String) (R C : SDoc)
    (cur : List String), getTbl R p = some C → pathOk p = true →
    goodEntries kvs = true → nodupKeys kvs = true →
    (∀ g gkvs, (g, gkvs) ∈ sectionsOf kvs → keyAbsent g C = true) →
    ∃ c, procLines ⟨R, cur⟩ (rawSections p kvs)
      = some ⟨setTbl R p (C ++ tableEntries kvs), c⟩
  | [], p, R, C, cur, h, _, _, _, _ => by
    refine ⟨cur, ?_⟩
    simp only [rawSections, procLines, tableEntries, List.append_nil]
    rw [setTbl_same p R C h]
  | (g, SVal.str s) :: rest, p, R, C, cur, h, hp, hge, hnd, habs => by
    simp only [goodEntries, Bool.and_eq_true] at hge
    simp only [nodupKeys, Bool.and_eq_true] at hnd
    simp only [rawSections, rawSecOf, List.nil_append, tableEntries]
    exact proc_rawSections rest p R C cur h hp hge.2 hnd.2
      (fun g2 gkvs2 hm => habs g2 gkvs2 (by simpa [sectionsOf] using hm))
  | (g, SVal.table gkvs) :: rest, p, R, C, cur, h, hp, hge, hnd, habs => by
    simp only [goodEntries, Bool.and_eq_true] at hge
    obtain ⟨⟨hk, hv⟩, hrest⟩ := hge
    simp only [nodupKeys, Bool.and_eq_true] at hnd
    obtain ⟨hka, hndr⟩ := hnd
    have habsg : keyAbsent g C = true := habs g gkvs (by simp [sectionsOf])
    obtain ⟨c1, hc1⟩ := proc_rawSecOf (SVal.table gkvs) p g R C cur h hp hk hv habsg
    simp only [secEntry] at hc1
    simp only [rawSections]
    have h2 := getTbl_setTbl_self p R C (C ++ [(g, SVal.table gkvs)]) h
    have habs2 : ∀ g2 gkvs2, (g2, gkvs2) ∈ sectionsOf rest →
        keyAbsent g2 (C ++ [(g, SVal.table gkvs)]) = true := by
      intro g2 gkvs2 hm
      have hg2C := habs g2 gkvs2 (by simp only [sectionsOf, List.mem_cons]; exact Or.inr hm)
      have hg2m : (g2, SVal.table gkvs2) ∈ rest := sectionsOf_mem rest g2 gkvs2 hm
      have hne := keyAbsent_mem rest g g2 (SVal.table gkvs2) hka hg2m
      refine keyAbsent_append C [(g, SVal.table gkvs)] g2 hg2C ?_
      exact (keyAbsent_cons g (SVal.table gkvs) g2 []).mpr ⟨fun he => hne he.symm, rfl⟩
    obtain ⟨c2, hc2⟩ := proc_rawSections rest p
      (setTbl R p (C ++ [(g, SVal.table gkvs)])) (C ++ [(g, SVal.table gkvs)]) c1
      h2 hp hrest hndr habs2
    refine ⟨c2, ?_⟩
    rw [procLines_append_some (rawSecOf p g (SVal.table gkvs))
      (rawSections p rest) ⟨R, cur⟩ _ hc1]
    rw [hc2, setTbl_setTbl p R C _ _ h]
    simp only [tableEntries, List.append_assoc, List.cons_append, List.nil_append]

/-- Parsing one sub-table block of a section appends the sub-table, fully
rebuilt, to the section body. -/
theorem proc_rawGrandOf : ∀ (v : SVal) (p : List String) (g : String) (R C : SDoc)
    (cur : List String), getTbl R p = some C → pathOk p = true →
    bareKey g = true → goodSub v = true → keyAbsent g C = true →
    ∃ c, procLines ⟨R, cur⟩ (rawGrandOf p g v)
      = some ⟨setTbl R p (C ++ secEntry g v), c⟩
  | .str s, p, g, R, C, cur, h, _, _, _, _ => by
    refine ⟨cur, ?_⟩
    simp only [rawGrandOf, procLines, secEntry, List.append_nil]
    rw [setTbl_same p R C h]
  | .table hkvs, p, g, R, C, cur, h, hp, hg, hv, ha => by
    simp only [goodSub, Bool.and_eq_true] at hv
    obtain ⟨⟨⟨hhs, hnd⟩, hsf⟩, hge⟩ := hv
    have hpg : pathOk (p ++ [g]) = true := pathOk_append p g hp hg
    have hA : procLines ⟨ensurePath R (p ++ [g]), p ++ [g]⟩ (scalarLines hkvs)
        = some ⟨setTbl R p (C ++ [(g, SVal.table (scalarEntries hkvs))]), p ++ [g]⟩ := by
      rw [ensurePath_set p R C g h ha]
      rw [proc_scalarLines hkvs (p ++ [g]) _ [] (getTbl_snoc p R C [] g h ha) hge]
      simp only [List.nil_append]
      rw [setTbl_snoc p R C [] (scalarEntries hkvs) g h ha]
    simp only [rawGrandOf]
    obtain ⟨c, hc⟩ := proc_rawSections hkvs (p ++ [g])
      (setTbl R p (C ++ [(g, SVal.table (scalarEntries hkvs))]))
      (scalarEntries hkvs) (p ++ [g])
      (getTbl_snoc p R C (scalarEntries hkvs) g h ha) hpg hge hnd
      (sections_absent_scalars hkvs hnd)
    refine ⟨c, ?_⟩
    have hA2 : procLines ⟨R, cur⟩
        (headerLine (dotted (p ++ [g])) :: scalarLines hkvs)
        = some ⟨setTbl R p (C ++ [(g, SVal.table (scalarEntries hkvs))]), p ++ [g]⟩ := by
      rw [procLines_header R cur (p ++ [g]) (scalarLines hkvs) hpg (by simp)]
      exact hA
    rw [procLines_append_some (headerLine (dotted (p ++ [g])) :: scalarLines hkvs)
      (rawSections (p ++ [g]) hkvs) ⟨R, cur⟩ _ hA2]
    rw [hc, setTbl_snoc p R C (scalarEntries hkvs)
      (scalarEntries hkvs ++ tableEntries hkvs) g h ha]
    rw [scalarsFirst_decomp hkvs hsf]
    rfl

/-- Parsing the sub-table blocks of a section appends its table entries,
fully rebuilt, to the section body. -/
theorem proc_rawGrand : ∀ (kvs : SDoc) (p : List String) (R C : SDoc)
    (cur : List String), getTbl R p = some C → pathOk p = true →
    goodEntries kvs = true → nodupKeys kvs = true →
    (∀ g gkvs, (g, gkvs) ∈ sectionsOf kvs → keyAbsent g C = true) →
    ∃ c, procLines ⟨R, cur⟩ (rawGrand p kvs)
      = some ⟨setTbl R p (C ++ tableEntries kvs), c⟩
  | [], p, R, C, cur, h, _, _, _, _ => by
    refine ⟨cur, ?_⟩
    simp only [rawGrand, procLines, tableEntries, List.append_nil]
    rw [setTbl_same p R C h]
  | (g, SVal.str s) :: rest, p, R, C, cur, h, hp, hge, hnd, habs => by
    simp only [goodEntries, Bool.and_eq_true] at hge
    simp only [nodupKeys, Bool.and_eq_true] at hnd
    simp only [rawGrand, rawGrandOf, List.nil_append, tableEntries]
    exact proc_rawGrand rest p R C cur h hp hge.2 hnd.2
      (fun g2 gkvs2 hm => habs g2 gkvs2 (by simpa [sectionsOf] using hm))
  | (g, SVal.table gkvs) :: rest, p, R, C, cur, h, hp, hge, hnd, habs => by
    simp only [goodEntries, Bool.and_eq_true] at hge
    obtain ⟨⟨hk, hv⟩, hrest⟩ := hge
    simp only [nodupKeys, Bool.and_eq_true] at hnd
    obtain ⟨hka, hndr⟩ := hnd
    have habsg : keyAbsent g C = true := habs g gkvs (by simp [sectionsOf])
    obtain ⟨c1, hc1⟩ := proc_rawGrandOf (SVal.table gkvs) p g R C cur h hp hk hv habsg
    simp only [secEntry] at hc1
    simp only [rawGrand]
    have h2 := getTbl_setTbl_self p R C (C ++ [(g, SVal.table gkvs)]) h
    have habs2 : ∀ g2 gkvs2, (g2, gkvs2) ∈ sectionsOf rest →
        keyAbsent g2 (C ++ [(g, SVal.table gkvs)]) = true := by
      intro g2 gkvs2 hm
      have hg2C := habs g2 gkvs2 (by simp only [sectionsOf, List.mem_cons]; exact Or.inr hm)
      have hg2m : (g2, SVal.table gkvs2) ∈ rest := sectionsOf_mem rest g2 gkvs2 hm
      have hne := keyAbsent_mem rest g g2 (SVal.table gkvs2) hka hg2m
      refine keyAbsent_append C [(g, SVal.table gkvs)] g2 hg2C ?_
      exact (keyAbsent_cons g (SVal.table gkvs) g2 []).mpr ⟨fun he => hne he.symm, rfl⟩
    obtain ⟨c2, hc2⟩ := proc_rawGrand rest p
      (setTbl R p (C ++ [(g, SVal.table gkvs)])) (C ++ [(g, SVal.table gkvs)]) c1
      h2 hp hrest hndr habs2
    refine ⟨c2, ?_⟩
    rw [procLines_append_some (rawGrandOf p g (SVal.table gkvs))
      (rawGrand p rest) ⟨R, cur⟩ _ hc1]
    rw [hc2, setTbl_setTbl p R C _ _ h]
    simp only [tableEntries, List.append_assoc, List.cons_append, List.nil_append]

end

/-- Every line the root `dumps` call prints is newline-free. -/
theorem rootLines_nlFree (D : SDoc) (hg : goodRoot D = true) :
    ∀ l ∈ rootLines D, ∀ x ∈ l, x ≠ '\n' := by
  have hgsplit := hg
  simp only [goodRoot, Bool.and_eq_true] at hgsplit
  obtain ⟨⟨hnd, hsf⟩, hge⟩ := hgsplit
  have hsecs := rawSections_nlFree [] D rfl hge
  intro l hl
  by_cases hhs : hasScalar D = true
  · unfold rootLines at hl
    rw [if_pos hhs] at hl
    rcases List.mem_append.mp hl with hsc | hsec
    · exact (scalarLines_wf D hge l hsc).2
    · exact hsecs l hsec
  · unfold rootLines at hl
    rw [if_neg hhs] at hl
    exact hsecs l (List.mem_of_mem_tail hl)

/-- C7 (amended): serializing a well-formed document — bare distinct keys,
plain string values, scalars before sub-tables, and at least one scalar in
every nested table — and re-parsing the text recovers the document exactly,
in content and key order. -/
theorem roundtrip_restricted : ∀ D : SDoc, goodRoot D = true →
    parseToml (dumps D) = some D := by
  intro D hg
  have hgsplit := hg
  simp only [goodRoot, Bool.and_eq_true] at hgsplit
  obtain ⟨⟨hnd, hsf⟩, hge⟩ := hgsplit
  have hmain : ∃ c, procLines ⟨[], []⟩ (rootLines D) = some ⟨D, c⟩ := by
    cases hhs : hasScalar D with
    | true =>
      have hroot : rootLines D = scalarLines D ++ rawSections [] D := by
        unfold rootLines
        rw [if_pos hhs]
      have hsc := proc_scalarLines D [] [] [] rfl hge
      obtain ⟨c, hsecs⟩ := proc_rawSections D []
        (setTbl [] [] ([] ++ scalarEntries D)) (scalarEntries D) []
        (by rfl) rfl hge hnd (sections_absent_scalars D hnd)
      refine ⟨c, ?_⟩
      rw [hroot]
      rw [procLines_append_some (scalarLines D) (rawSections [] D) ⟨[], []⟩ _ hsc]
      rw [hsecs]
      show some (⟨scalarEntries D ++ tableEntries D, c⟩ : PSt) = some ⟨D, c⟩
      rw [scalarsFirst_decomp D hsf]
    | false =>
      cases D with
      | nil => exact ⟨[], rfl⟩
      | cons hd tl =>
        obtain ⟨k, v⟩ := hd
        cases v with
        | str s => simp [hasScalar] at hhs
        | table gkvs =>
          have htail : rootLines ((k, SVal.table gkvs) :: tl)
              = ((headerLine (dotted ([] ++ [k])) :: scalarLines gkvs)
                  ++ rawGrand ([] ++ [k]) gkvs) ++ rawSections [] tl := by
            simp [rootLines, hhs, rawSections, rawSecOf]
          have hblank : procLines ⟨[], []⟩
              (rawSections [] ((k, SVal.table gkvs) :: tl))
              = procLines ⟨[], []⟩ (rootLines ((k, SVal.table gkvs) :: tl)) := by
            rw [htail]
            have e : rawSections [] ((k, SVal.table gkvs) :: tl)
                = [] :: (((headerLine (dotted ([] ++ [k])) :: scalarLines gkvs)
                    ++ rawGrand ([] ++ [k]) gkvs) ++ rawSections [] tl) := by
              simp [rawSections, rawSecOf]
            rw [e, procLines_blank]
          obtain ⟨c, hsecs⟩ := proc_rawSections ((k, SVal.table gkvs) :: tl) []
            [] [] [] rfl rfl hge hnd (fun g2 gkvs2 _ => rfl)
          refine ⟨c, ?_⟩
          rw [← hblank, hsecs]
          show some (⟨tableEntries ((k, SVal.table gkvs) :: tl), c⟩ : PSt)
            = some ⟨(k, SVal.table gkvs) :: tl, c⟩
          rw [tableEntries_no_scalar ((k, SVal.table gkvs) :: tl) hhs]
  obtain ⟨c, hc⟩ := hmain
  show (procLines ⟨[], []⟩ (splitCh '\n' (dumps D).data)).map PSt.root = some D
  rw [dumps_data D hg, splitCh_unlinesC (rootLines D) (rootLines_nlFree D hg)]
  rw [procLines_append_some (rootLines D) [[]] ⟨[], []⟩ ⟨D, c⟩ hc]
  rfl

/-- C7 counterexample: the cycle-free document `{a = {b = {}}}` serializes
to the empty string (no section has a scalar body, so no header is ever
printed) and re-parses to the empty document, not to the original —
serialization is lossy, so the unrestricted round-trip law fails. -/
theorem roundtrip_counterexample :
    dumps [("a", SVal.table [("b", SVal.table [])])] = "" ∧
    parseToml (dumps [("a", SVal.table [("b", SVal.table [])])]) = some ([] : SDoc) ∧
    some ([] : SDoc) ≠ some [("a", SVal.table [("b", SVal.table [])])] := by
  refine ⟨rfl, rfl, ?_⟩
  intro hcon
  injection hcon with h1
  cases h1

/-- A concrete well-formed document for the round-trip law: root scalars,
two top-level tables, one nested sub-table, every table with a scalar. -/
def exDoc7 : SDoc :=
  [("name", SVal.str "acutter"),
   ("project", SVal.table
     [("version", SVal.str "1.0"),
      ("urls", SVal.table [("home", SVal.str "https,x")])]),
   ("tool", SVal.table [("flag", SVal.str "y")])]

theorem roundtrip_restricted_witness :
    goodRoot exDoc7 = true ∧ parseToml (dumps exDoc7) = some exDoc7 :=
  ⟨by decide, roundtrip_restricted exDoc7 (by decide)⟩
